import Mathlib

/-! # White/black admission controller (`white_black_linux.cpp`)

Shallow embedding of the controller state `wb_t`, of `group_new`, `wb_init`,
`enter_color`, `leave_color` and `wb_cleanup`, and of the interleavings of
their critical sections. The functions of `white_black_windows.cpp` are embedded
apart, in the namespace `Windows`, over the same state.

Representation choices.

* The singly linked queue `head → … → tail` is a `List group_t`: `head` is the
  first element, `tail` the last one, `next` is the list order.  `head == NULL`
  and `tail == NULL` both mean the empty list.
* The counters are C `int`s; they are embedded as `Int` (they count threads, so
  32-bit wrap-around is out of reach).
* A condition variable is embedded as the list of the threads blocked on it,
  every thread being represented by the `mycolor` argument of its pending
  `enter_color` call.
* Everything between `pthread_mutex_lock` and the next `pthread_mutex_unlock` or
  `pthread_cond_wait` runs atomically, so one such section is one step.
* `pthread_cond_destroy` on a condition variable with blocked threads is
  undefined in POSIX; a function that reaches such a call has no result
  (`none`). The Windows file never destroys a condition variable.
-/

namespace WB

/-- The enumeration `color_t`. -/
inductive color_t where
  | NONE
  | WHITE
  | BLACK
  deriving DecidableEq, Repr

open color_t

/-- The struct `group_t`; `cond` holds the threads blocked on the group's
condition variable, `next` is the position in the queue. -/
structure group_t where
  color : color_t
  waiting : Int
  to_enter : Int
  cond : List color_t
  deriving DecidableEq, Repr

/-- The struct `wb_t` (the mutex has no state between critical sections). -/
structure wb_t where
  queue : List group_t
  active_color : color_t
  active_count : Int
  deriving DecidableEq, Repr

/-- Whether a call of `enter_color` has returned or sits in `pthread_cond_wait`. -/
inductive outcome where
  | returned
  | blocked
  deriving DecidableEq, Repr

/-- The pointer `w->head`. -/
def wb_t.head (w : wb_t) : Option group_t := w.queue.head?

/-- The pointer `w->tail`. -/
def wb_t.tail (w : wb_t) : Option group_t := w.queue.getLast?

/-- `group_new`: a fresh group with both counters zero and nobody blocked. -/
def group_new (color : color_t) : group_t :=
  { color := color, waiting := 0, to_enter := 0, cond := [] }

/-- `wb_init`: empty queue, no active color, nobody inside. -/
def wb_init : wb_t :=
  { queue := [], active_color := NONE, active_count := 0 }

/-- The condition of the first `if` of `enter_color`: the resource is free, or
it is used by my color and the first group is not of another color. -/
def fast_path (w : wb_t) (mycolor : color_t) : Bool :=
  w.active_color == NONE ||
    (w.active_color == mycolor &&
      (match w.head with
       | none => true
       | some h => h.color == mycolor))

/-- The queue after `if (g == NULL || g->color != mycolor) { ... }` of
`enter_color`: a new group is linked behind the tail unless the tail group has
my color. The group `g` of the caller is the last one of the result. -/
def link_group (q : List group_t) (mycolor : color_t) : List group_t :=
  match q.getLast? with
  | none => [group_new mycolor]
  | some g => if g.color != mycolor then q ++ [group_new mycolor] else q

/-- Overwrites the last group of a non-empty queue. -/
def set_last (q : List group_t) (g : group_t) : List group_t :=
  q.dropLast ++ [g]

/-- The end of `enter_color`, from `g->waiting--` to the unlink of an emptied
head group, run by a thread whose group `g` is at position `i`. -/
def enter_color_finish (w : wb_t) (i : Nat) (mycolor : color_t) : wb_t :=
  match w.queue[i]? with
  | none => w
  | some g =>
    let g1 : group_t := { g with waiting := g.waiting - 1, to_enter := g.to_enter - 1 }
    let q1 := w.queue.set i g1
    let q2 := if i = 0 ∧ g1.waiting = 0 ∧ g1.to_enter = 0 then q1.tail else q1
    { queue := q2, active_color := mycolor, active_count := w.active_count + 1 }

/-- `enter_color` from `pthread_mutex_lock` up to its return or its first
`pthread_cond_wait`. -/
def enter_color (w : wb_t) (mycolor : color_t) : wb_t × outcome :=
  if fast_path w mycolor then
    ({ w with active_color := mycolor, active_count := w.active_count + 1 }, outcome.returned)
  else
    let q := link_group w.queue mycolor
    match q.getLast? with
    | none => (w, outcome.blocked)
    | some g =>
      let g1 : group_t := { g with waiting := g.waiting + 1 }
      if g1.to_enter = 0 then
        ({ w with queue := set_last q { g1 with cond := mycolor :: g1.cond } }, outcome.blocked)
      else
        (enter_color_finish { w with queue := set_last q g1 } (q.length - 1) mycolor,
          outcome.returned)

/-- A thread blocked on the group at position `i` wakes up inside
`enter_color`: it tests `g->to_enter == 0` again and either waits again or
leaves the condition variable and finishes the call. -/
def enter_color_wake (w : wb_t) (i : Nat) (mycolor : color_t) : wb_t × outcome :=
  match w.queue[i]? with
  | none => (w, outcome.blocked)
  | some g =>
    if g.to_enter = 0 then (w, outcome.blocked)
    else
      (enter_color_finish
          { w with queue := w.queue.set i { g with cond := g.cond.erase mycolor } } i mycolor,
        outcome.returned)

/-- `leave_color`. -/
def leave_color (w : wb_t) (_mycolor : color_t) : wb_t :=
  let w1 : wb_t := { w with active_count := w.active_count - 1 }
  if w1.active_count = 0 then
    match w1.queue with
    | g :: rest => { w1 with queue := { g with to_enter := g.waiting } :: rest }
    | [] => { w1 with active_color := NONE }
  else w1

/-! ## Threads around the controller -/

/-- The controller together with the number of threads of each color that are
between the return of `enter_color` and their call of `leave_color`. -/
structure Sys where
  w : wb_t
  in_white : Nat
  in_black : Nat
  deriving DecidableEq, Repr

/-- Number of threads of color `c` inside the resource. -/
def Sys.inside (s : Sys) : color_t → Nat
  | WHITE => s.in_white
  | BLACK => s.in_black
  | NONE => 0

/-- Records that a thread of color `c` got in. -/
def Sys.enter (s : Sys) (w : wb_t) : color_t → Sys
  | WHITE => { s with w := w, in_white := s.in_white + 1 }
  | BLACK => { s with w := w, in_black := s.in_black + 1 }
  | NONE => { s with w := w }

/-- Records that a thread of color `c` got out. -/
def Sys.depart (s : Sys) (w : wb_t) : color_t → Sys
  | WHITE => { s with w := w, in_white := s.in_white - 1 }
  | BLACK => { s with w := w, in_black := s.in_black - 1 }
  | NONE => { s with w := w }

/-- The system after `wb_init`, as `main` starts it. -/
def sys_init : Sys := { w := wb_init, in_white := 0, in_black := 0 }

/-- The atomic steps of the threads. -/
inductive Event where
  | enter (c : color_t)
  | wake (i : Nat) (c : color_t)
  | leave (c : color_t)
  deriving DecidableEq, Repr

/-- One step. `enter c`: a new thread calls `enter_color` with `WHITE` or
`BLACK`. `wake i c`: a thread of color `c` blocked on the group at position `i`
runs again. `leave c`: a thread of color `c` that is inside calls `leave_color`.
The result is `none` when the step cannot happen. -/
def step (s : Sys) : Event → Option Sys
  | Event.enter c =>
    if c = NONE then none
    else
      match enter_color s.w c with
      | (w1, outcome.returned) => some (s.enter w1 c)
      | (w1, outcome.blocked) => some { s with w := w1 }
  | Event.wake i c =>
    match s.w.queue[i]? with
    | none => none
    | some g =>
      if c ∈ g.cond then
        match enter_color_wake s.w i c with
        | (w1, outcome.returned) => some (s.enter w1 c)
        | (w1, outcome.blocked) => some { s with w := w1 }
      else none
  | Event.leave c =>
    if 0 < s.inside c then some (s.depart (leave_color s.w c) c) else none

/-- Runs a schedule, the first event first. -/
def run (s : Sys) : List Event → Option Sys
  | [] => some s
  | e :: es =>
    match step s e with
    | none => none
    | some s1 => run s1 es

/-- States some schedule leads to from the initial one. -/
def Reachable (s : Sys) : Prop := ∃ es : List Event, run sys_init es = some s

/-- A group nobody has been released from: one waiting thread of color `c`. -/
def lone_group (c : color_t) : group_t :=
  { color := c, waiting := 1, to_enter := 0, cond := [c] }

/-- What holds of every queued group: it has a real color, the threads blocked
on it have that color and are counted by `waiting`, and `to_enter` lies between
`0` and `waiting`. -/
structure group_ok (g : group_t) : Prop where
  color_ne : g.color ≠ NONE
  cond_color : ∀ c ∈ g.cond, c = g.color
  waiting_eq : g.waiting = g.cond.length
  waiting_pos : 1 ≤ g.waiting
  to_enter_nonneg : 0 ≤ g.to_enter
  to_enter_le : g.to_enter ≤ g.waiting

/-- The inductive invariant of the system. -/
structure Inv (s : Sys) : Prop where
  groups : ∀ g ∈ s.w.queue, group_ok g
  behind : ∀ g ∈ s.w.queue.tail, g.to_enter = 0
  alternate : s.w.queue.Chain' (fun a b => a.color ≠ b.color)
  count : s.w.active_count = (s.in_white : Int) + (s.in_black : Int)
  white : 0 < s.in_white → s.w.active_color = WHITE
  black : 0 < s.in_black → s.w.active_color = BLACK
  busy : s.w.active_color = NONE → s.w.queue = []
  idle : s.w.active_count = 0 → s.w.queue = [] → s.w.active_color = NONE
  granted : ∀ g, s.w.queue.head? = some g → 0 < g.to_enter → 0 < s.w.active_count →
    s.w.active_color = g.color
  ready : ∀ g, s.w.queue.head? = some g → s.w.active_count = 0 → 1 ≤ g.to_enter

/-- One critical section run on the controller, with no assumption on the
caller: any color, any woken thread, `leave_color` by anybody. -/
def wb_step (w : wb_t) : Event → wb_t
  | Event.enter c => (enter_color w c).1
  | Event.wake i c => (enter_color_wake w i c).1
  | Event.leave c => leave_color w c

/-- Adjacent groups differ in color. -/
def alternating (q : List group_t) : Prop :=
  q.Chain' (fun a b => a.color ≠ b.color)

/-! ## States and schedules of the scenarios -/

/-- Sample state: a white thread inside, a black thread blocked behind it. -/
def held_open : Sys :=
  { w := { queue := [lone_group BLACK], active_color := WHITE, active_count := 1 },
    in_white := 1, in_black := 0 }

/-- Schedule of two white and two black arrivals behind a white holder, run
until the first of the two queued white threads is inside. -/
def cut_in_schedule : List Event :=
  [Event.enter WHITE, Event.enter BLACK, Event.enter WHITE, Event.enter WHITE,
   Event.enter BLACK, Event.leave WHITE, Event.wake 0 BLACK, Event.leave BLACK,
   Event.wake 0 WHITE]

/-- The state `cut_in_schedule` ends in: a white thread inside, a half-drained
white head group, a black group queued behind it. -/
def cut_in_state : Sys :=
  { w := { queue := [{ color := WHITE, waiting := 1, to_enter := 1, cond := [WHITE] },
                     lone_group BLACK],
           active_color := WHITE, active_count := 1 },
    in_white := 1, in_black := 0 }

/-- Sample state: a white thread inside, a black group and a white group
queued behind it, nothing released. -/
def two_queued : Sys :=
  { w := { queue := [lone_group BLACK, lone_group WHITE], active_color := WHITE,
           active_count := 1 },
    in_white := 1, in_black := 0 }

/-- Sample state: the last white thread left, the black head group is released
and a white group waits behind it. -/
def released_head : Sys :=
  { w := { queue := [{ color := BLACK, waiting := 1, to_enter := 1, cond := [BLACK] },
                     lone_group WHITE],
           active_color := WHITE, active_count := 0 },
    in_white := 0, in_black := 0 }

/-- The system with controller `w` and `n` threads inside, all of color `c`. -/
def crowd (c : color_t) (n : Nat) (w : wb_t) : Sys :=
  { w := w, in_white := if c = WHITE then n else 0, in_black := if c = BLACK then n else 0 }

/-- The controller with `n` threads of color `c` inside and nobody queued. -/
def held (c : color_t) (n : Nat) : wb_t :=
  { queue := [], active_color := c, active_count := n }

/-- A group of color `c` with `k` blocked threads, `r` of which may enter. -/
def batch (c : color_t) (k r : Nat) : group_t :=
  { color := c, waiting := k, to_enter := r, cond := List.replicate k c }

/-- Scenario D: the colors of the six arrivals. -/
def arrivals (a b : color_t) : List color_t := [a, b, a, b, a, b]

/-- Scenario D: the color of arrival number `j`, counted from `0`, when the
arrivals alternate and start with `a`. -/
def turn (a b : color_t) (j : Nat) : color_t := if j % 2 = 0 then a else b

/-- Scenario D: the first `j` of the six queued threads have got in, one after
the other, and the last of them (for `j = 0` the first holder, of color `b`) is
inside alone; the others are queued in arrival order, one group each. -/
def lined_up (a b : color_t) (j : Nat) : Sys :=
  crowd (turn b a j) 1
    { queue := ((arrivals a b).drop j).map lone_group, active_color := turn b a j,
      active_count := 1 }

/-- Scenario D: the thread inside `lined_up a b j` has left and the head group
is released. -/
def handed_over (a b : color_t) (j : Nat) : Sys :=
  crowd (turn b a j) 0 (leave_color (lined_up a b j).w (turn b a j))

/-- Start of the starving schedule: a white thread gets in; a black thread
blocks; the white thread leaves, which releases the black group; a second black
thread arrives before the first one has run again, joins the released group and
takes its grant; a white thread arrives and blocks behind the black group. -/
def starve_start : List Event :=
  [Event.enter WHITE, Event.enter BLACK, Event.leave WHITE, Event.enter BLACK,
   Event.enter WHITE]

/-- One round of the starving schedule: a black thread arrives, a black thread
that is inside leaves, a white thread arrives. -/
def starve_round : List Event :=
  [Event.enter BLACK, Event.leave BLACK, Event.enter WHITE]

/-- The starving schedule up to the end of round `n`. -/
def starve_schedule : Nat → List Event
  | 0 => starve_start
  | n + 1 => starve_schedule n ++ starve_round

/-- The state at the end of round `n`: `k` black threads inside, the first
black thread still blocked in the head group, `n + 1` white threads blocked
behind it. -/
def starved (n k : Nat) : Sys :=
  crowd BLACK k
    { queue := [batch BLACK 1 0, batch WHITE (n + 1) 0], active_color := BLACK,
      active_count := k }

/-! ## Teardown -/

/-- The call `pthread_cond_destroy(&g->cond)`: it returns when no thread is
blocked on the condition variable; with blocked threads it is undefined, which
is `none`. -/
def cond_destroy (g : group_t) : Option group_t :=
  if g.cond = [] then some g else none

/-- The loop of `wb_cleanup`: walks the queue from `g` on, destroys the
condition variable of each group and frees the group; the result lists the
groups destroyed, in the order of the walk, and is `none` when one of the
calls of `pthread_cond_destroy` is undefined. -/
def destroy_groups : List group_t → Option (List group_t)
  | [] => some []
  | g :: next =>
    match cond_destroy g with
    | none => none
    | some d =>
      match destroy_groups next with
      | none => none
      | some ds => some (d :: ds)

/-- `wb_cleanup`: destroys all queued groups and sets `head = tail = NULL`;
the second component lists the groups destroyed. There is no result when the
loop has none. -/
def wb_cleanup (w : wb_t) : Option (wb_t × List group_t) :=
  match destroy_groups w.queue with
  | none => none
  | some ds => some ({ w with queue := [] }, ds)

/-! ## The state after the decision of `enter_color` -/

/-- `enter_color` from `group_t *g = w->tail` to `g->waiting++`: the caller's
group is linked if need be and counts the caller; nobody waits yet. -/
def enter_color_queue (w : wb_t) (mycolor : color_t) : wb_t :=
  let q := link_group w.queue mycolor
  match q.getLast? with
  | none => w
  | some g => { w with queue := set_last q { g with waiting := g.waiting + 1 } }

/-- `enter_color` from `pthread_mutex_lock` to either the `return` of the
fast path (`true`) or `g->waiting++` (`false`), before the wait loop. -/
def enter_color_decide (w : wb_t) (mycolor : color_t) : wb_t × Bool :=
  if fast_path w mycolor then
    ({ w with active_color := mycolor, active_count := w.active_count + 1 }, true)
  else (enter_color_queue w mycolor, false)

/-! ## The Windows backend (`white_black_windows.cpp`) -/

namespace Windows

/-- `group_new` of the Windows file. -/
def group_new (color : color_t) : group_t :=
  { color := color, waiting := 0, to_enter := 0, cond := [] }

/-- `wb_init` of the Windows file. -/
def wb_init : wb_t :=
  { queue := [], active_color := NONE, active_count := 0 }

/-- The end of the Windows `enter_color`, from `g->waiting--` to the unlink of
an emptied head group, for the group at position `i`. -/
def enter_color_finish (w : wb_t) (i : Nat) (mycolor : color_t) : wb_t :=
  match w.queue[i]? with
  | none => w
  | some g =>
    let waiting := g.waiting - 1
    let to_enter := g.to_enter - 1
    let q := w.queue.set i { g with waiting := waiting, to_enter := to_enter }
    { queue := if i = 0 ∧ waiting = 0 ∧ to_enter = 0 then q.tail else q,
      active_color := mycolor,
      active_count := w.active_count + 1 }

/-- The Windows `enter_color` from `EnterCriticalSection` up to its return or
its first `SleepConditionVariableCS`. -/
def enter_color (w : wb_t) (mycolor : color_t) : wb_t × outcome :=
  if w.active_color = NONE ∨
      (w.active_color = mycolor ∧
        (w.queue.head? = none ∨ w.queue.head?.map group_t.color = some mycolor)) then
    ({ queue := w.queue, active_color := mycolor, active_count := w.active_count + 1 },
      outcome.returned)
  else
    let q :=
      match w.queue.getLast? with
      | none => [group_new mycolor]
      | some t => if t.color = mycolor then w.queue else w.queue ++ [group_new mycolor]
    match q.getLast? with
    | none => (w, outcome.blocked)
    | some g =>
      if g.to_enter = 0 then
        ({ w with
            queue := q.dropLast ++
              [{ g with waiting := g.waiting + 1, cond := mycolor :: g.cond }] },
          outcome.blocked)
      else
        (enter_color_finish
            { w with queue := q.dropLast ++ [{ g with waiting := g.waiting + 1 }] }
            (q.length - 1) mycolor,
          outcome.returned)

/-- A thread blocked in `SleepConditionVariableCS` on the group at position `i`
runs again. -/
def enter_color_wake (w : wb_t) (i : Nat) (mycolor : color_t) : wb_t × outcome :=
  match w.queue[i]? with
  | none => (w, outcome.blocked)
  | some g =>
    if g.to_enter = 0 then (w, outcome.blocked)
    else
      (enter_color_finish
          { w with queue := w.queue.set i { g with cond := g.cond.erase mycolor } } i mycolor,
        outcome.returned)

/-- `leave_color` of the Windows file. -/
def leave_color (w : wb_t) (_mycolor : color_t) : wb_t :=
  let count := w.active_count - 1
  if count = 0 then
    match w.queue with
    | g :: rest =>
      { queue := { g with to_enter := g.waiting } :: rest, active_color := w.active_color,
        active_count := count }
    | [] => { queue := [], active_color := NONE, active_count := count }
  else { w with active_count := count }

/-- The loop of the Windows `wb_cleanup`: walks the queue from `g` on and
frees each group, with no call on its condition variable; the result lists the
groups freed, in the order of the walk. -/
def free_groups : List group_t → List group_t
  | [] => []
  | g :: next => g :: free_groups next

/-- `wb_cleanup` of the Windows file: frees all queued groups and sets
`head = tail = NULL`; the second component lists the groups freed. -/
def wb_cleanup (w : wb_t) : wb_t × List group_t :=
  ({ w with queue := [] }, free_groups w.queue)

end Windows

/-! ## Relabeling of the colors -/

/-- Exchanges `WHITE` and `BLACK`. -/
def swap : color_t → color_t
  | NONE => NONE
  | WHITE => BLACK
  | BLACK => WHITE

/-- Relabels a group and the threads blocked on it. -/
def swap_group (g : group_t) : group_t :=
  { g with color := swap g.color, cond := g.cond.map swap }

/-- Relabels a controller state. -/
def swap_wb (w : wb_t) : wb_t :=
  { queue := w.queue.map swap_group, active_color := swap w.active_color,
    active_count := w.active_count }

/-! ## Reference definitions -/

/-- Reference definition of release, after section 4.2 of the specification:
decrement the occupancy; when it reaches zero, grant the whole head group if
there is one, else mark the resource idle. -/
def release_ref (w : wb_t) : wb_t :=
  let n := w.active_count - 1
  if n ≠ 0 then { w with active_count := n }
  else if w.queue = [] then { queue := [], active_color := NONE, active_count := n }
  else { queue := w.queue.modifyHead (fun g => { g with to_enter := g.waiting }),
         active_color := w.active_color, active_count := n }

/-- Reference definition of the admission decision, after its description:
immediate admission when the resource is idle, or used by `c` with no group of
another color at the head; otherwise the caller is counted in the tail group
of color `c`, which is appended when the queue is empty or ends in another
color. -/
def acquire_ref (w : wb_t) (c : color_t) : wb_t :=
  if w.active_color = NONE ∨
      (w.active_color = c ∧ ∀ h ∈ w.queue.head?, h.color = c) then
    { w with active_color := c, active_count := w.active_count + 1 }
  else if ∀ t ∈ w.queue.getLast?, t.color ≠ c then
    { w with queue := w.queue ++ [{ color := c, waiting := 1, to_enter := 0, cond := [] }] }
  else
    { w with queue := w.queue.modifyLast (fun t => { t with waiting := t.waiting + 1 }) }

/-- The sum `waiting + to_enter` of a group. -/
def group_sum (g : group_t) : Int := g.waiting + g.to_enter

/-- The ways one critical section can change the queue `w.queue`: not at all;
a new group is opened at the tail; the caller joins the tail group; a thread
takes a grant of the group at position `i`, which stays queued; a thread takes
the last grant of the head group, which is unlinked; the head group is
released. -/
inductive queue_change (w : wb_t) : Event → List group_t → Prop
  | same (e : Event) : queue_change w e w.queue
  | opened (c : color_t) : fast_path w c = false →
      queue_change w (Event.enter c) (w.queue ++ [lone_group c])
  | joined (c : color_t) (l : List group_t) (t : group_t) : fast_path w c = false →
      w.queue = l ++ [t] → t.color = c → t.to_enter = 0 →
      queue_change w (Event.enter c)
        (l ++ [{ t with waiting := t.waiting + 1, cond := c :: t.cond }])
  | consumed (e : Event) (i : Nat) (g g' : group_t) : w.queue[i]? = some g →
      g.to_enter ≠ 0 → g'.color = g.color → g'.to_enter = g.to_enter - 1 →
      g'.waiting ≤ g.waiting → ¬ (i = 0 ∧ g'.waiting = 0 ∧ g'.to_enter = 0) →
      ((∃ c, e = Event.wake i c) ∨ ∃ c, e = Event.enter c ∧ fast_path w c = false) →
      queue_change w e (w.queue.set i g')
  | unlinked (e : Event) (h : group_t) (rest : List group_t) : w.queue = h :: rest →
      h.to_enter = 1 →
      ((∃ c, e = Event.wake 0 c ∧ h.waiting = 1) ∨
        ∃ c, e = Event.enter c ∧ fast_path w c = false ∧ h.waiting = 0 ∧ rest = []) →
      queue_change w e rest
  | released (c : color_t) (h : group_t) (rest : List group_t) : w.active_count - 1 = 0 →
      w.queue = h :: rest →
      queue_change w (Event.leave c) ({ h with to_enter := h.waiting } :: rest)

/-- Sample state: the white holder of `held_open` has left; the black group,
alone in the queue, is released and its thread has not run yet. -/
def released_only : Sys :=
  { w := { queue := [batch BLACK 1 1], active_color := WHITE, active_count := 0 },
    in_white := 0, in_black := 0 }

/-! # Properties -/

/-! ## The shape of the queue after `enter_color` -/

theorem link_group_nil (c : color_t) : link_group [] c = [group_new c] := rfl

theorem link_group_other (l : List group_t) (t : group_t) (c : color_t) (h : t.color ≠ c) :
    link_group (l ++ [t]) c = l ++ [t] ++ [group_new c] := by
  simp [link_group, List.getLast?_concat, h]

theorem link_group_same (l : List group_t) (t : group_t) (c : color_t) (h : t.color = c) :
    link_group (l ++ [t]) c = l ++ [t] := by
  simp [link_group, List.getLast?_concat, h]

theorem set_last_concat (l : List group_t) (t g : group_t) : set_last (l ++ [t]) g = l ++ [g] := by
  simp [set_last, List.dropLast_concat]

theorem enter_color_fast (w : wb_t) (c : color_t) (h : fast_path w c = true) :
    enter_color w c =
      ({ w with active_color := c, active_count := w.active_count + 1 }, outcome.returned) := by
  simp [enter_color, h]

theorem enter_color_nil (w : wb_t) (c : color_t) (h : fast_path w c = false)
    (hq : w.queue = []) :
    enter_color w c = ({ w with queue := [lone_group c] }, outcome.blocked) := by
  simp [enter_color, h, hq, link_group_nil, group_new, set_last, lone_group]

theorem enter_color_other (w : wb_t) (c : color_t) (l : List group_t) (t : group_t)
    (h : fast_path w c = false) (hq : w.queue = l ++ [t]) (hc : t.color ≠ c) :
    enter_color w c = ({ w with queue := l ++ [t] ++ [lone_group c] }, outcome.blocked) := by
  simp only [enter_color, h, hq, link_group_other l t c hc, List.getLast?_concat,
    set_last_concat]
  simp [group_new, lone_group]

theorem enter_color_join (w : wb_t) (c : color_t) (l : List group_t) (t : group_t)
    (h : fast_path w c = false) (hq : w.queue = l ++ [t]) (hc : t.color = c)
    (ht : t.to_enter = 0) :
    enter_color w c =
      ({ w with queue := l ++ [{ t with waiting := t.waiting + 1, cond := c :: t.cond }] },
        outcome.blocked) := by
  simp only [enter_color, h, hq, link_group_same l t c hc, List.getLast?_concat,
    set_last_concat]
  simp [ht]

theorem enter_color_grab (w : wb_t) (c : color_t) (l : List group_t) (t : group_t)
    (h : fast_path w c = false) (hq : w.queue = l ++ [t]) (hc : t.color = c)
    (ht : t.to_enter ≠ 0) :
    enter_color w c =
      (enter_color_finish { w with queue := l ++ [{ t with waiting := t.waiting + 1 }] }
          l.length c, outcome.returned) := by
  simp only [enter_color, h, hq, link_group_same l t c hc, List.getLast?_concat,
    set_last_concat]
  simp [ht]

/-! ## The invariant -/

theorem Inv.init : Inv sys_init := by
  constructor <;> simp [sys_init, wb_init]

theorem Inv.count_nonneg {s : Sys} (hs : Inv s) : 0 ≤ s.w.active_count := by
  rw [hs.count]; positivity

/-- Admission of a thread of the head group's color through a released head
group `h`, which becomes `g1`. -/
theorem Inv.through_head {s : Sys} (hs : Inv s) (h g1 : group_t) (rest : List group_t)
    (c : color_t) (hq : s.w.queue = h :: rest) (hpos : h.to_enter ≠ 0) (hc : c = h.color)
    (hcol : g1.color = h.color) (hcond : ∀ x ∈ g1.cond, x = g1.color)
    (hw : g1.waiting = g1.cond.length) (hte : g1.to_enter = h.to_enter - 1)
    (hle : g1.to_enter ≤ g1.waiting) :
    Inv (s.enter { queue := if g1.waiting = 0 ∧ g1.to_enter = 0 then rest else g1 :: rest,
                   active_color := c, active_count := s.w.active_count + 1 } c) := by
  have hok : group_ok h := hs.groups h (by simp [hq])
  have hne : c ≠ NONE := hc ▸ hok.color_ne
  have h1 : 1 ≤ h.to_enter := by have := hok.to_enter_nonneg; omega
  have hcnt := hs.count_nonneg
  have hrest : ∀ g ∈ rest, g.to_enter = 0 := fun g hg => hs.behind g (by simp [hq, hg])
  have hact : 0 < s.w.active_count → s.w.active_color = c := fun hp =>
    hc ▸ hs.granted h (by simp [hq]) (by omega) hp
  have hch : (h :: rest).Chain' (fun a b => a.color ≠ b.color) := hq ▸ hs.alternate
  have hg1 : ¬ (g1.waiting = 0 ∧ g1.to_enter = 0) → group_ok g1 := fun hn =>
    { color_ne := hcol ▸ hok.color_ne
      cond_color := hcond
      waiting_eq := hw
      waiting_pos := by omega
      to_enter_nonneg := by omega
      to_enter_le := hle }
  have hgroups : ∀ g ∈ (if g1.waiting = 0 ∧ g1.to_enter = 0 then rest else g1 :: rest),
      group_ok g := by
    intro g hg
    split at hg
    · exact hs.groups g (by simp [hq, hg])
    · next hn =>
      rcases List.mem_cons.1 hg with rfl | hg
      · exact hg1 hn
      · exact hs.groups g (by simp [hq, hg])
  have hbehind : ∀ g ∈ (if g1.waiting = 0 ∧ g1.to_enter = 0 then rest else g1 :: rest).tail,
      g.to_enter = 0 := by
    intro g hg
    split at hg
    · exact hrest g (List.mem_of_mem_tail hg)
    · exact hrest g hg
  have halt : (if g1.waiting = 0 ∧ g1.to_enter = 0 then rest else g1 :: rest).Chain'
      (fun a b => a.color ≠ b.color) := by
    split
    · exact (List.chain'_cons'.1 hch).2
    · rw [List.chain'_cons'] at hch ⊢
      exact ⟨fun y hy => hcol ▸ hch.1 y hy, hch.2⟩
  have hgranted : ∀ g,
      (if g1.waiting = 0 ∧ g1.to_enter = 0 then rest else g1 :: rest).head? = some g →
      0 < g.to_enter → c = g.color := by
    intro g hg hp
    split at hg
    · have := hrest g (List.mem_of_mem_head? hg)
      omega
    · simp at hg
      rw [← hg, hcol, hc]
  have hwhite : 0 < s.in_white → s.w.active_color = c := fun hp =>
    hact (by rw [hs.count]; omega)
  have hblack : 0 < s.in_black → s.w.active_color = c := fun hp =>
    hact (by rw [hs.count]; omega)
  cases c with
  | NONE => exact absurd rfl hne
  | WHITE =>
    exact
      { groups := hgroups
        behind := hbehind
        alternate := halt
        count := by simp [Sys.enter, hs.count]; ring
        white := fun _ => rfl
        black := fun hp => by
          have h1 := hs.black hp
          have h2 := hblack hp
          simp [Sys.enter] at hp
          rw [h1] at h2
          exact absurd h2 (by decide)
        busy := fun hn => by simp [Sys.enter] at hn
        idle := fun h0 => by simp [Sys.enter] at h0; omega
        granted := fun g hg hp _ => hgranted g hg hp
        ready := fun g _ h0 => by simp [Sys.enter] at h0; omega }
  | BLACK =>
    exact
      { groups := hgroups
        behind := hbehind
        alternate := halt
        count := by simp [Sys.enter, hs.count]; ring
        white := fun hp => by
          have h1 := hs.white hp
          have h2 := hwhite hp
          rw [h1] at h2
          exact absurd h2 (by decide)
        black := fun _ => rfl
        busy := fun hn => by simp [Sys.enter] at hn
        idle := fun h0 => by simp [Sys.enter] at h0; omega
        granted := fun g hg hp _ => hgranted g hg hp
        ready := fun g _ h0 => by simp [Sys.enter] at h0; omega }

/-- A thread that is inside calls `leave_color`. -/
theorem Inv.leave_aux {s : Sys} (hs : Inv s) (c : color_t) (iw ib : Nat)
    (hsum : (iw : Int) + (ib : Int) = (s.in_white : Int) + (s.in_black : Int) - 1)
    (hiw : iw ≤ s.in_white) (hib : ib ≤ s.in_black) :
    Inv { w := leave_color s.w c, in_white := iw, in_black := ib } := by
  have hcnt := hs.count
  by_cases h0 : s.w.active_count - 1 = 0
  · cases hq : s.w.queue with
    | nil =>
      have hl : leave_color s.w c =
          { queue := [], active_color := NONE, active_count := s.w.active_count - 1 } := by
        simp [leave_color, h0, hq]
      rw [hl]
      constructor <;> simp <;> omega
    | cons g rest =>
      have hl : leave_color s.w c =
          { queue := { g with to_enter := g.waiting } :: rest,
            active_color := s.w.active_color, active_count := s.w.active_count - 1 } := by
        simp [leave_color, h0, hq]
      rw [hl]
      have hok : group_ok g := hs.groups g (by simp [hq])
      have hch : (g :: rest).Chain' (fun a b => a.color ≠ b.color) := hq ▸ hs.alternate
      exact
        { groups := by
            intro x hx
            rcases List.mem_cons.1 hx with rfl | hx
            · exact
                { color_ne := hok.color_ne
                  cond_color := hok.cond_color
                  waiting_eq := hok.waiting_eq
                  waiting_pos := hok.waiting_pos
                  to_enter_nonneg := by have := hok.waiting_pos; simp; omega
                  to_enter_le := le_refl _ }
            · exact hs.groups x (by simp [hq, hx])
          behind := fun x hx => hs.behind x (by simpa [hq] using hx)
          alternate := by
            rw [List.chain'_cons'] at hch ⊢
            exact hch
          count := by simp; omega
          white := fun hp => by simp at hp; omega
          black := fun hp => by simp at hp; omega
          busy := fun hn => by
            have := hs.busy hn
            simp [hq] at this
          idle := fun _ hn => by simp at hn
          granted := fun x _ _ hp => by simp at hp; omega
          ready := fun x hx _ => by
            simp at hx
            rw [← hx]
            exact hok.waiting_pos }
  · have hl : leave_color s.w c = { s.w with active_count := s.w.active_count - 1 } := by
      simp [leave_color, h0]
    rw [hl]
    exact
      { groups := hs.groups
        behind := hs.behind
        alternate := hs.alternate
        count := by simp; omega
        white := fun hp => hs.white (by simp at hp; omega)
        black := fun hp => hs.black (by simp at hp; omega)
        busy := hs.busy
        idle := fun hz => absurd hz h0
        granted := fun x hx hp hc => hs.granted x hx hp (by simp at hc; omega)
        ready := fun x _ hz => absurd hz h0 }

theorem Inv.leave {s s' : Sys} (hs : Inv s) (c : color_t)
    (h : step s (Event.leave c) = some s') : Inv s' := by
  simp only [step] at h
  split at h
  · next hp =>
    simp only [Option.some.injEq] at h
    subst h
    cases c with
    | NONE => simp [Sys.inside] at hp
    | WHITE =>
      simp only [Sys.inside] at hp
      exact hs.leave_aux WHITE (s.in_white - 1) s.in_black (by omega) (by omega) (le_refl _)
    | BLACK =>
      simp only [Sys.inside] at hp
      exact hs.leave_aux BLACK s.in_white (s.in_black - 1) (by omega) (le_refl _) (by omega)
  · exact absurd h (by simp)

theorem fast_path_iff (w : wb_t) (c : color_t) :
    fast_path w c = true ↔
      w.active_color = NONE ∨
        (w.active_color = c ∧ ∀ g, w.queue.head? = some g → g.color = c) := by
  unfold fast_path wb_t.head
  cases hq : w.queue.head? <;> simp

theorem enter_color_finish_head (w : wb_t) (h : group_t) (rest : List group_t) (c : color_t)
    (hq : w.queue = h :: rest) :
    enter_color_finish w 0 c =
      { queue :=
          if h.waiting - 1 = 0 ∧ h.to_enter - 1 = 0 then rest
          else { h with waiting := h.waiting - 1, to_enter := h.to_enter - 1 } :: rest,
        active_color := c, active_count := w.active_count + 1 } := by
  simp only [enter_color_finish, hq, List.getElem?_cons_zero, List.set_cons_zero, true_and]
  split <;> simp

/-- A thread takes the fast path. -/
theorem Inv.fast {s : Sys} (hs : Inv s) (c : color_t) (hc : c ≠ NONE)
    (hf : fast_path s.w c = true) :
    Inv (s.enter { s.w with active_color := c, active_count := s.w.active_count + 1 } c) := by
  rw [fast_path_iff] at hf
  have hcnt := hs.count_nonneg
  have hgranted : ∀ g, s.w.queue.head? = some g → c = g.color := by
    intro g hg
    rcases hf with hn | ⟨_, hh⟩
    · have := hs.busy hn
      simp [this] at hg
    · exact (hh g hg).symm
  have hother : s.w.active_color = NONE ∨ s.w.active_color = c := by
    rcases hf with hn | ⟨he, _⟩
    · exact Or.inl hn
    · exact Or.inr he
  cases c with
  | NONE => exact absurd rfl hc
  | WHITE =>
    exact
      { groups := hs.groups
        behind := hs.behind
        alternate := hs.alternate
        count := by simp [Sys.enter, hs.count]; ring
        white := fun _ => rfl
        black := fun hp => by
          have h1 := hs.black hp
          rw [h1] at hother
          simp at hother
        busy := fun hn => by simp [Sys.enter] at hn
        idle := fun h0 => by simp [Sys.enter] at h0; omega
        granted := fun g hg _ _ => hgranted g hg
        ready := fun g _ h0 => by simp [Sys.enter] at h0; omega }
  | BLACK =>
    exact
      { groups := hs.groups
        behind := hs.behind
        alternate := hs.alternate
        count := by simp [Sys.enter, hs.count]; ring
        white := fun hp => by
          have h1 := hs.white hp
          rw [h1] at hother
          simp at hother
        black := fun _ => rfl
        busy := fun hn => by simp [Sys.enter] at hn
        idle := fun h0 => by simp [Sys.enter] at h0; omega
        granted := fun g hg _ _ => hgranted g hg
        ready := fun g _ h0 => by simp [Sys.enter] at h0; omega }

/-- A thread blocks at the back of the queue, which becomes `q`. -/
theorem Inv.enqueue {s : Sys} (hs : Inv s) (q : List group_t)
    (hact : s.w.active_color ≠ NONE) (hne : q ≠ [])
    (hgroups : ∀ g ∈ q, group_ok g) (hbehind : ∀ g ∈ q.tail, g.to_enter = 0)
    (halt : q.Chain' (fun a b => a.color ≠ b.color))
    (hhead : ∀ g, q.head? = some g →
      s.w.queue.head? = some g ∨ (g.to_enter = 0 ∧ s.w.active_count ≠ 0)) :
    Inv { s with w := { s.w with queue := q } } :=
  { groups := hgroups
    behind := hbehind
    alternate := halt
    count := hs.count
    white := hs.white
    black := hs.black
    busy := fun hn => absurd hn hact
    idle := fun _ hq => absurd hq hne
    granted := fun g hg hp hc => by
      rcases hhead g hg with h | ⟨h, _⟩
      · exact hs.granted g h hp hc
      · omega
    ready := fun g hg h0 => by
      rcases hhead g hg with h | ⟨_, h⟩
      · exact hs.ready g h h0
      · exact absurd h0 h }

theorem group_ok_lone (c : color_t) (hc : c ≠ NONE) : group_ok (lone_group c) := by
  constructor <;> simp [lone_group, hc]

/-- What a refused fast path says about the state. -/
theorem slow_path_active {s : Sys} (c : color_t) (hf : ¬ fast_path s.w c = true) :
    s.w.active_color ≠ NONE := fun hn => hf ((fast_path_iff _ _).2 (Or.inl hn))

theorem Inv.enter {s s' : Sys} (hs : Inv s) (c : color_t)
    (h : step s (Event.enter c) = some s') : Inv s' := by
  simp only [step] at h
  split at h
  · exact absurd h (by simp)
  next hc =>
  by_cases hf : fast_path s.w c = true
  · rw [enter_color_fast _ _ hf] at h
    simp only [Option.some.injEq] at h
    subst h
    exact hs.fast c hc hf
  have hact := slow_path_active c hf
  have hf' : fast_path s.w c = false := by simpa using hf
  rcases List.eq_nil_or_concat s.w.queue with hq | ⟨l, t, hq⟩
  · -- the queue is empty: the thread opens the first group
    rw [enter_color_nil _ _ hf' hq] at h
    simp only [Option.some.injEq] at h
    subst h
    refine hs.enqueue _ hact (by simp) ?_ (by simp) (by simp) ?_
    · intro g hg
      simp only [List.mem_singleton] at hg
      exact hg ▸ group_ok_lone c hc
    · intro g hg
      simp only [List.head?_cons, Option.some.injEq] at hg
      subst hg
      refine Or.inr ⟨rfl, fun h0 => hact (hs.idle h0 hq)⟩
  rw [List.concat_eq_append] at hq
  have hch : (l ++ [t]).Chain' (fun a b => a.color ≠ b.color) := hq ▸ hs.alternate
  have hmem : ∀ g ∈ l, g ∈ s.w.queue := fun g hg => by simp [hq, hg]
  have hbeh : ∀ g ∈ (l ++ [t]).tail, g.to_enter = 0 := hq ▸ hs.behind
  have hhd : ∀ g, (l ++ [t]).head? = some g → s.w.queue.head? = some g := fun g hg => by
    rw [hq]; exact hg
  by_cases hcol : t.color = c
  · by_cases hte : t.to_enter = 0
    · -- the tail group has my color and is not released: the thread joins it
      rw [enter_color_join _ _ l t hf' hq hcol hte] at h
      simp only [Option.some.injEq] at h
      subst h
      have hok : group_ok t := hs.groups t (by simp [hq])
      refine hs.enqueue _ hact (by simp) ?_ ?_ ?_ ?_
      · intro g hg
        rcases List.mem_append.1 hg with hg | hg
        · exact hs.groups g (hmem g hg)
        · simp only [List.mem_singleton] at hg
          subst hg
          exact
            { color_ne := hok.color_ne
              cond_color := by
                intro x hx
                rcases List.mem_cons.1 hx with rfl | hx
                · exact hcol.symm
                · exact hok.cond_color x hx
              waiting_eq := by have := hok.waiting_eq; simp; omega
              waiting_pos := by have := hok.waiting_pos; simp; omega
              to_enter_nonneg := hok.to_enter_nonneg
              to_enter_le := by have := hok.to_enter_le; simp; omega }
      · intro g hg
        cases l with
        | nil => simp at hg
        | cons a l =>
          simp only [List.cons_append, List.tail_cons, List.mem_append,
            List.mem_singleton] at hg hbeh
          rcases hg with hg | hg
          · exact hbeh g (Or.inl hg)
          · subst hg; exact hte
      · rw [List.chain'_append] at hch ⊢
        exact ⟨hch.1, List.chain'_singleton _, fun x hx y hy => by
          simp only [List.head?_cons, Option.mem_def, Option.some.injEq] at hy
          subst hy
          exact hch.2.2 x hx t (by simp)⟩
      · intro g hg
        cases l with
        | nil =>
          simp only [List.nil_append, List.head?_cons, Option.some.injEq] at hg
          subst hg
          refine Or.inr ⟨hte, fun h0 => ?_⟩
          have := hs.ready t (by simp [hq]) h0
          omega
        | cons a l => exact Or.inl (hhd g (by simpa using hg))
    · -- the tail group has my color and is released: the thread takes a grant
      have hl : l = [] := by
        cases l with
        | nil => rfl
        | cons a l => exact absurd (hbeh t (by simp)) hte
      subst hl
      simp only [List.nil_append] at hq
      rw [enter_color_grab _ _ [] t hf' hq hcol hte] at h
      simp only [List.nil_append, List.length_nil] at h
      rw [enter_color_finish_head
        { s.w with queue := [{ t with waiting := t.waiting + 1 }] }
        { t with waiting := t.waiting + 1 } [] c rfl] at h
      simp only [Option.some.injEq] at h
      subst h
      have hok : group_ok t := hs.groups t (by simp [hq])
      exact hs.through_head t
        { t with waiting := t.waiting + 1 - 1, to_enter := t.to_enter - 1 } [] c hq hte
        hcol.symm rfl hok.cond_color (by have := hok.waiting_eq; simp; omega) rfl
        (by have := hok.to_enter_le; simp; omega)
  · -- the tail group has the other color: the thread opens a new group
    rw [enter_color_other _ _ l t hf' hq hcol] at h
    simp only [Option.some.injEq] at h
    subst h
    refine hs.enqueue _ hact (by simp) ?_ ?_ ?_ ?_
    · intro g hg
      rcases List.mem_append.1 hg with hg | hg
      · exact hs.groups g (hq ▸ hg)
      · simp only [List.mem_singleton] at hg
        exact hg ▸ group_ok_lone c hc
    · intro g hg
      rw [List.tail_append_of_ne_nil (by simp)] at hg
      rcases List.mem_append.1 hg with hg | hg
      · exact hbeh g hg
      · simp only [List.mem_singleton] at hg
        subst hg; rfl
    · rw [List.chain'_append]
      refine ⟨hch, List.chain'_singleton _, fun x hx y hy => ?_⟩
      simp only [List.head?_cons, Option.mem_def, Option.some.injEq] at hy
      simp only [List.getLast?_concat, Option.mem_def, Option.some.injEq] at hx
      subst hx hy
      exact hcol
    · intro g hg
      rw [List.head?_append_of_ne_nil _ (by simp)] at hg
      exact Or.inl (hhd g hg)

/-- Under the invariant a group behind the head is not released. -/
theorem Inv.behind_index {s : Sys} (hs : Inv s) (i : Nat) (g : group_t)
    (hg : s.w.queue[i + 1]? = some g) : g.to_enter = 0 := by
  cases hq : s.w.queue with
  | nil => simp [hq] at hg
  | cons a rest =>
    rw [hq, List.getElem?_cons_succ] at hg
    exact hs.behind g (by rw [hq]; exact List.getElem?_mem hg)

theorem Inv.wake {s s' : Sys} (hs : Inv s) (i : Nat) (c : color_t)
    (h : step s (Event.wake i c) = some s') : Inv s' := by
  simp only [step] at h
  split at h
  · exact absurd h (by simp)
  next g hg =>
  split at h
  · rename_i hmem
    by_cases hte : g.to_enter = 0
    · -- the group is not released: the thread waits again
      have hw : enter_color_wake s.w i c = (s.w, outcome.blocked) := by
        simp [enter_color_wake, hg, hte]
      rw [hw] at h
      simp only [Option.some.injEq] at h
      subst h
      exact hs
    · cases i with
      | succ k => exact absurd (hs.behind_index k g hg) hte
      | zero =>
        cases hq : s.w.queue with
        | nil => simp [hq] at hg
        | cons a rest =>
          have ha : a = g := by simpa [hq] using hg
          subst ha
          have hw : enter_color_wake s.w 0 c =
              (enter_color_finish
                { s.w with queue := { a with cond := a.cond.erase c } :: rest } 0 c,
                outcome.returned) := by
            simp [enter_color_wake, hq, hte]
          rw [hw, enter_color_finish_head
            { s.w with queue := { a with cond := a.cond.erase c } :: rest }
            { a with cond := a.cond.erase c } rest c rfl] at h
          simp only [Option.some.injEq] at h
          subst h
          have hok : group_ok a := hs.groups a (by simp [hq])
          have hlen := List.length_erase_of_mem hmem
          have hpos : 0 < a.cond.length := List.length_pos_of_mem hmem
          exact hs.through_head a
            { a with cond := a.cond.erase c, waiting := a.waiting - 1,
                     to_enter := a.to_enter - 1 } rest c hq hte
            (hok.cond_color c hmem) rfl
            (fun x hx => hok.cond_color x (List.mem_of_mem_erase hx))
            (by have := hok.waiting_eq; simp only [hlen]; omega) rfl
            (by have := hok.to_enter_le; simp only; omega)
  · exact absurd h (by simp)

theorem Inv.step {s s' : Sys} (hs : Inv s) (e : Event) (h : step s e = some s') : Inv s' := by
  cases e with
  | enter c => exact hs.enter c h
  | wake i c => exact hs.wake i c h
  | leave c => exact hs.leave c h

theorem Inv.run {s s' : Sys} (hs : Inv s) (es : List Event) (h : run s es = some s') :
    Inv s' := by
  induction es generalizing s with
  | nil =>
    simp only [WB.run, Option.some.injEq] at h
    exact h ▸ hs
  | cons e es ih =>
    simp only [WB.run] at h
    split at h
    · exact absurd h (by simp)
    · next s1 h1 => exact ih (hs.step e h1) h

theorem Reachable.inv {s : Sys} (h : Reachable s) : Inv s := by
  obtain ⟨es, hes⟩ := h
  exact Inv.init.run es hes

/-! ## Mutual exclusion, idle consistency, group atomicity -/

/-- C1 (mutual exclusion): in every state reachable from `wb_init` by the atomic
steps of `enter_color` and `leave_color` (colors `WHITE`/`BLACK`, `leave_color`
only by a thread that is inside), threads of both colors are never inside
together, and when `active_count > 0` every thread inside has color
`active_color` and `active_count` is the number of threads inside. -/
theorem mutual_exclusion (s : Sys) (h : Reachable s) :
    ¬ (0 < s.in_white ∧ 0 < s.in_black) ∧
      (0 < s.w.active_count →
        (∀ c, 0 < s.inside c → c = s.w.active_color) ∧
          s.w.active_count = (s.in_white : Int) + (s.in_black : Int)) := by
  have hs := h.inv
  refine ⟨fun ⟨hw, hb⟩ => ?_, fun _ => ⟨fun c hc => ?_, hs.count⟩⟩
  · have h1 := hs.white hw
    rw [hs.black hb] at h1
    exact absurd h1 (by decide)
  · cases c with
    | NONE => simp [Sys.inside] at hc
    | WHITE => exact (hs.white hc).symm
    | BLACK => exact (hs.black hc).symm

/-- Witness of C1: two white threads inside after two calls of `enter_color`. -/
theorem mutual_exclusion_witness :
    Reachable { w := { queue := [], active_color := WHITE, active_count := 2 },
                in_white := 2, in_black := 0 } ∧
      (¬ (0 < 2 ∧ 0 < 0) ∧
        ((0 : Int) < 2 →
          (∀ c, 0 < (Sys.mk { queue := [], active_color := WHITE, active_count := 2 }
              2 0).inside c → c = WHITE) ∧ (2 : Int) = ((2 : Nat) : Int) + ((0 : Nat) : Int))) :=
  ⟨⟨[Event.enter WHITE, Event.enter WHITE], rfl⟩,
    mutual_exclusion _ ⟨[Event.enter WHITE, Event.enter WHITE], rfl⟩⟩

/-- C5 (idle consistency): in every reachable state `active_color == NONE` holds
exactly when `active_count == 0` and the queue is empty; a non-empty queue
implies `active_color != NONE`. -/
theorem idle_consistency (s : Sys) (h : Reachable s) :
    (s.w.active_color = NONE ↔ (s.w.active_count = 0 ∧ s.w.queue = [])) ∧
      (s.w.queue ≠ [] → s.w.active_color ≠ NONE) := by
  have hs := h.inv
  refine ⟨⟨fun hn => ⟨?_, hs.busy hn⟩, fun ⟨h0, hq⟩ => hs.idle h0 hq⟩,
    fun hq hn => hq (hs.busy hn)⟩
  have hw : s.in_white = 0 := by
    by_contra hp
    have := hs.white (Nat.pos_of_ne_zero hp)
    rw [hn] at this
    exact absurd this (by decide)
  have hb : s.in_black = 0 := by
    by_contra hp
    have := hs.black (Nat.pos_of_ne_zero hp)
    rw [hn] at this
    exact absurd this (by decide)
  rw [hs.count, hw, hb]
  rfl

/-- Witness of C5: a white thread inside, a black one queued. -/
theorem idle_consistency_witness :
    Reachable { w := { queue := [lone_group BLACK], active_color := WHITE, active_count := 1 },
                in_white := 1, in_black := 0 } ∧
      ((WHITE = NONE ↔ ((1 : Int) = 0 ∧ [lone_group BLACK] = [])) ∧
        ([lone_group BLACK] ≠ [] → WHITE ≠ NONE)) :=
  ⟨⟨[Event.enter WHITE, Event.enter BLACK], rfl⟩,
    idle_consistency _ ⟨[Event.enter WHITE, Event.enter BLACK], rfl⟩⟩

/-- With a head group of another color, `enter_color` neither takes the fast
path nor finds a released tail group: the thread blocks at the back. -/
theorem Inv.enter_behind_head {s : Sys} (hs : Inv s) (c : color_t) (h : group_t)
    (hh : s.w.queue.head? = some h) (hc : h.color ≠ c) :
    fast_path s.w c = false ∧
      ∃ l t, s.w.queue = l ++ [t] ∧
        ((t.color ≠ c ∧
            enter_color s.w c =
              ({ s.w with queue := l ++ [t] ++ [lone_group c] }, outcome.blocked)) ∨
          (t.color = c ∧ t.to_enter = 0 ∧ l ≠ [] ∧
            enter_color s.w c =
              ({ s.w with
                  queue := l ++ [{ t with waiting := t.waiting + 1, cond := c :: t.cond }] },
                outcome.blocked))) := by
  have hf : fast_path s.w c = false := by
    rw [← Bool.not_eq_true, fast_path_iff]
    rintro (hn | ⟨_, hall⟩)
    · have := hs.busy hn
      simp [this] at hh
    · exact hc (hall h hh)
  refine ⟨hf, ?_⟩
  rcases List.eq_nil_or_concat s.w.queue with hq | ⟨l, t, hq⟩
  · simp [hq] at hh
  rw [List.concat_eq_append] at hq
  refine ⟨l, t, hq, ?_⟩
  by_cases hcol : t.color = c
  · right
    have hl : l ≠ [] := by
      rintro rfl
      simp only [hq, List.nil_append, List.head?_cons, Option.some.injEq] at hh
      exact hc (hh ▸ hcol)
    have hte : t.to_enter = 0 := by
      apply hs.behind
      rw [hq, List.tail_append_of_ne_nil hl]
      simp
    exact ⟨hcol, hte, hl, enter_color_join _ _ l t hf hq hcol hte⟩
  · left
    exact ⟨hcol, enter_color_other _ _ l t hf hq hcol⟩

theorem held_open_reachable : Reachable held_open :=
  ⟨[Event.enter WHITE, Event.enter BLACK], rfl⟩

/-- C2 (no cut-in-line, scenario B): in a reachable state whose head group has
a color other than `c`, `enter_color(c)` does not admit the caller, also when
`active_color == c`: `active_count` and `active_color` stay as they are and the
caller is blocked in the tail group, which has color `c` and `to_enter == 0`. -/
theorem no_cut_in_line (s : Sys) (c : color_t) (h : group_t) (hr : Reachable s)
    (hh : s.w.head = some h) (hc : h.color ≠ c) :
    (enter_color s.w c).2 = outcome.blocked ∧
      (enter_color s.w c).1.active_count = s.w.active_count ∧
      (enter_color s.w c).1.active_color = s.w.active_color ∧
      ∃ t, (enter_color s.w c).1.tail = some t ∧ t.color = c ∧ t.to_enter = 0 ∧
        c ∈ t.cond ∧ t.waiting = t.cond.length := by
  have hs := hr.inv
  obtain ⟨_, l, t, hq, ⟨hcol, he⟩ | ⟨hcol, hte, _, he⟩⟩ := hs.enter_behind_head c h hh hc
  · rw [he]
    refine ⟨rfl, rfl, rfl, lone_group c, ?_, rfl, rfl, by simp [lone_group], by
      simp [lone_group]⟩
    simp [wb_t.tail]
  · rw [he]
    have hok : group_ok t := hs.groups t (by simp [hq])
    refine ⟨rfl, rfl, rfl,
      { t with waiting := t.waiting + 1, cond := c :: t.cond }, ?_, hcol, hte, ?_, ?_⟩
    · simp [wb_t.tail]
    · simp
    · have := hok.waiting_eq
      simp only [List.length_cons, Nat.cast_add, Nat.cast_one]
      omega

/-- Witness of C2, scenario B: a white thread holds the resource, a black one
is blocked, and a third, white, call blocks behind the black group. -/
theorem no_cut_in_line_witness :
    Reachable held_open ∧ held_open.w.head = some (lone_group BLACK) ∧
      (lone_group BLACK).color ≠ WHITE ∧
      enter_color held_open.w WHITE =
        ({ queue := [lone_group BLACK, lone_group WHITE], active_color := WHITE,
           active_count := 1 }, outcome.blocked) ∧
      ((enter_color held_open.w WHITE).2 = outcome.blocked ∧
        (enter_color held_open.w WHITE).1.active_count = held_open.w.active_count ∧
        (enter_color held_open.w WHITE).1.active_color = held_open.w.active_color ∧
        ∃ t, (enter_color held_open.w WHITE).1.tail = some t ∧ t.color = WHITE ∧
          t.to_enter = 0 ∧ WHITE ∈ t.cond ∧ t.waiting = t.cond.length) :=
  ⟨held_open_reachable, rfl, by decide, rfl,
    no_cut_in_line held_open WHITE (lone_group BLACK) held_open_reachable rfl (by decide)⟩

/-- C3, as stated, fails: `cut_in_state` is reachable and has a black group in
its queue, yet `enter_color(WHITE)` takes the fast path, ahead of that group. -/
theorem group_fifo_counterexample :
    run sys_init cut_in_schedule = some cut_in_state ∧
      cut_in_state.w.queue[1]? = some (lone_group BLACK) ∧
      fast_path cut_in_state.w WHITE = true ∧
      enter_color cut_in_state.w WHITE =
        ({ cut_in_state.w with active_count := 2 }, outcome.returned) :=
  ⟨rfl, rfl, rfl, rfl⟩

/-- C3 amended (group-level FIFO): take a reachable state whose queue holds
a group of a color other than `c`, at the head or behind it. `enter_color(c)`
takes the fast path exactly when `active_color == c` and the head group has
color `c`; the caller then gets in ahead of the groups of the other color. In
every other such state the caller is not admitted: it blocks in the last group
`t`, of color `c` and not released, and every group of another color that was
queued keeps its place ahead of the caller's group. -/
theorem group_fifo (s : Sys) (c : color_t) (hr : Reachable s)
    (hopp : ∃ g ∈ s.w.queue, g.color ≠ c) :
    (fast_path s.w c = true ↔
        (s.w.active_color = c ∧ ∃ h, s.w.head = some h ∧ h.color = c)) ∧
      (fast_path s.w c = true →
        enter_color s.w c =
          ({ s.w with active_color := c, active_count := s.w.active_count + 1 },
            outcome.returned)) ∧
      (fast_path s.w c = false →
        ∃ l t, enter_color s.w c = ({ s.w with queue := l ++ [t] }, outcome.blocked) ∧
          t.color = c ∧ c ∈ t.cond ∧ t.to_enter = 0 ∧
          l <+: s.w.queue ∧ ∀ g ∈ s.w.queue, g.color ≠ c → g ∈ l) := by
  have hs := hr.inv
  obtain ⟨g0, hg0, hg0c⟩ := hopp
  have hne : s.w.queue ≠ [] := List.ne_nil_of_mem hg0
  have hact : s.w.active_color ≠ NONE := fun hn => hne (hs.busy hn)
  refine ⟨?_, fun hf => enter_color_fast _ _ hf, fun hf => ?_⟩
  · rw [fast_path_iff]
    constructor
    · rintro (hn | ⟨ha, hall⟩)
      · exact absurd hn hact
      · cases hq : s.w.queue with
        | nil => exact absurd hq hne
        | cons a r =>
          exact ⟨ha, a, by simp [wb_t.head, hq], hall a (by simp [hq])⟩
    · rintro ⟨ha, h, hh, hc⟩
      refine Or.inr ⟨ha, fun g hg => ?_⟩
      simp only [wb_t.head] at hh
      rw [hh] at hg
      simp only [Option.some.injEq] at hg
      exact hg ▸ hc
  · rcases List.eq_nil_or_concat s.w.queue with hq | ⟨l, t, hq⟩
    · exact absurd hq hne
    rw [List.concat_eq_append] at hq
    by_cases hcol : t.color = c
    · have hg0l : g0 ∈ l := by
        rw [hq] at hg0
        rcases List.mem_append.1 hg0 with h | h
        · exact h
        · simp only [List.mem_singleton] at h
          exact absurd (h ▸ hcol) hg0c
      have hl : l ≠ [] := List.ne_nil_of_mem hg0l
      have hte : t.to_enter = 0 := by
        apply hs.behind
        rw [hq, List.tail_append_of_ne_nil hl]
        simp
      refine ⟨l, { t with waiting := t.waiting + 1, cond := c :: t.cond },
        enter_color_join _ _ l t hf hq hcol hte, hcol, by simp, hte, ?_, ?_⟩
      · rw [hq]
        exact List.prefix_append _ _
      · intro g hg hgc
        rw [hq] at hg
        rcases List.mem_append.1 hg with h | h
        · exact h
        · simp only [List.mem_singleton] at h
          exact absurd (h ▸ hcol) hgc
    · refine ⟨l ++ [t], lone_group c, enter_color_other _ _ l t hf hq hcol, rfl,
        by simp [lone_group], rfl, ?_, ?_⟩
      · rw [hq]
      · intro g hg _
        rwa [hq] at hg

theorem two_queued_reachable : Reachable two_queued :=
  ⟨[Event.enter WHITE, Event.enter BLACK, Event.enter WHITE], rfl⟩

/-- Witness of C3 amended: a white thread inside, the queue black then white,
and a black caller: the head group has the caller's color, the fast path is
closed, and the caller blocks behind the white group. -/
theorem group_fifo_witness :
    Reachable two_queued ∧ (∃ g ∈ two_queued.w.queue, g.color ≠ BLACK) ∧
      enter_color two_queued.w BLACK =
        ({ two_queued.w with
            queue := [lone_group BLACK, lone_group WHITE, lone_group BLACK] },
          outcome.blocked) ∧
      ((fast_path two_queued.w BLACK = true ↔
          (two_queued.w.active_color = BLACK ∧
            ∃ h, two_queued.w.head = some h ∧ h.color = BLACK)) ∧
        (fast_path two_queued.w BLACK = true →
          enter_color two_queued.w BLACK =
            ({ two_queued.w with
                active_color := BLACK, active_count := two_queued.w.active_count + 1 },
              outcome.returned)) ∧
        (fast_path two_queued.w BLACK = false →
          ∃ l t, enter_color two_queued.w BLACK =
              ({ two_queued.w with queue := l ++ [t] }, outcome.blocked) ∧
            t.color = BLACK ∧ BLACK ∈ t.cond ∧ t.to_enter = 0 ∧
            l <+: two_queued.w.queue ∧ ∀ g ∈ two_queued.w.queue, g.color ≠ BLACK → g ∈ l)) :=
  ⟨two_queued_reachable, ⟨lone_group WHITE, by simp [two_queued], by decide⟩, rfl,
    group_fifo two_queued BLACK two_queued_reachable
      ⟨lone_group WHITE, by simp [two_queued], by decide⟩⟩

/-- C6 (group atomicity): in every reachable state the groups behind the head
have `to_enter == 0`; a thread blocked on such a group that wakes up stays
blocked and changes nothing; and a newly arriving thread is admitted only on
the fast path or through the head group itself, the only group in the queue
then. So no member of a later group gets in while an earlier group is the head. -/
theorem group_atomicity (s : Sys) (h : Reachable s) :
    (∀ i g, s.w.queue[i + 1]? = some g → g.to_enter = 0) ∧
      (∀ i c, enter_color_wake s.w (i + 1) c = (s.w, outcome.blocked)) ∧
      (∀ c, (enter_color s.w c).2 = outcome.returned →
        fast_path s.w c = true ∨ s.w.queue.length = 1) := by
  have hs := h.inv
  refine ⟨fun i g hg => hs.behind_index i g hg, fun i c => ?_, fun c hret => ?_⟩
  · unfold enter_color_wake
    cases hg : s.w.queue[i + 1]? with
    | none => rfl
    | some g => simp [hs.behind_index i g hg]
  · by_cases hf : fast_path s.w c = true
    · exact Or.inl hf
    right
    have hf' : fast_path s.w c = false := by simpa using hf
    rcases List.eq_nil_or_concat s.w.queue with hq | ⟨l, t, hq⟩
    · rw [enter_color_nil _ _ hf' hq] at hret
      simp at hret
    rw [List.concat_eq_append] at hq
    by_cases hcol : t.color = c
    · by_cases hte : t.to_enter = 0
      · rw [enter_color_join _ _ l t hf' hq hcol hte] at hret
        simp at hret
      · cases l with
        | nil => simp [hq]
        | cons a l =>
          exact absurd (hs.behind t (by simp [hq])) hte
    · rw [enter_color_other _ _ l t hf' hq hcol] at hret
      simp at hret

theorem released_head_reachable : Reachable released_head :=
  ⟨[Event.enter WHITE, Event.enter BLACK, Event.enter WHITE, Event.leave WHITE], rfl⟩

/-- Witness of C6: the black head group is released, a white group is behind. -/
theorem group_atomicity_witness :
    Reachable released_head ∧
      ((∀ i g, released_head.w.queue[i + 1]? = some g → g.to_enter = 0) ∧
        (∀ i c, enter_color_wake released_head.w (i + 1) c =
          (released_head.w, outcome.blocked)) ∧
        (∀ c, (enter_color released_head.w c).2 = outcome.returned →
          fast_path released_head.w c = true ∨ released_head.w.queue.length = 1)) :=
  ⟨released_head_reachable, group_atomicity released_head released_head_reachable⟩

/-! ## Queue alternation -/

theorem alternating_iff (q : List group_t) :
    alternating q ↔ (q.map group_t.color).Chain' (fun a b => a ≠ b) := by
  rw [List.chain'_map]; rfl

theorem colors_set (q : List group_t) (i : Nat) (g g1 : group_t) (h : q[i]? = some g)
    (hc : g1.color = g.color) :
    (q.set i g1).map group_t.color = q.map group_t.color := by
  rw [List.map_set]
  apply List.ext_getElem?
  intro j
  rw [List.getElem?_set]
  split
  · next hij =>
    subst hij
    obtain ⟨hlt, hgi⟩ := List.getElem?_eq_some.1 h
    simp [hlt, hc, ← hgi]
  · rfl

theorem alternating_set (q : List group_t) (i : Nat) (g g1 : group_t) (h : q[i]? = some g)
    (hc : g1.color = g.color) (ha : alternating q) : alternating (q.set i g1) := by
  rw [alternating_iff] at ha ⊢
  rwa [colors_set q i g g1 h hc]

theorem alternating_finish (w : wb_t) (i : Nat) (c : color_t) (ha : alternating w.queue) :
    alternating (enter_color_finish w i c).queue := by
  unfold enter_color_finish
  cases hg : w.queue[i]? with
  | none => exact ha
  | some g =>
    have hset := alternating_set w.queue i g
      { g with waiting := g.waiting - 1, to_enter := g.to_enter - 1 } hg rfl ha
    simp only
    split
    · exact List.Chain'.tail hset
    · exact hset

theorem alternating_wake (w : wb_t) (i : Nat) (c : color_t) (ha : alternating w.queue) :
    alternating (enter_color_wake w i c).1.queue := by
  unfold enter_color_wake
  cases hg : w.queue[i]? with
  | none => exact ha
  | some g =>
    simp only
    split
    · exact ha
    · exact alternating_finish _ i c
        (alternating_set w.queue i g { g with cond := g.cond.erase c } hg rfl ha)

theorem alternating_concat (l : List group_t) (t t1 : group_t) (hc : t1.color = t.color)
    (ha : alternating (l ++ [t])) : alternating (l ++ [t1]) := by
  unfold alternating at ha ⊢
  rw [List.chain'_append] at ha ⊢
  refine ⟨ha.1, List.chain'_singleton _, fun x hx y hy => ?_⟩
  simp only [List.head?_cons, Option.mem_def, Option.some.injEq] at hy
  subst hy
  rw [hc]
  exact ha.2.2 x hx t (by simp)

theorem alternating_enter (w : wb_t) (c : color_t) (ha : alternating w.queue) :
    alternating (enter_color w c).1.queue := by
  by_cases hf : fast_path w c = true
  · rw [enter_color_fast _ _ hf]
    exact ha
  have hf' : fast_path w c = false := by simpa using hf
  rcases List.eq_nil_or_concat w.queue with hq | ⟨l, t, hq⟩
  · rw [enter_color_nil _ _ hf' hq]
    exact List.chain'_singleton _
  rw [List.concat_eq_append] at hq
  rw [hq] at ha
  by_cases hcol : t.color = c
  · by_cases hte : t.to_enter = 0
    · rw [enter_color_join _ _ l t hf' hq hcol hte]
      exact alternating_concat l t _ rfl ha
    · rw [enter_color_grab _ _ l t hf' hq hcol hte]
      exact alternating_finish _ _ c (alternating_concat l t _ rfl ha)
  · rw [enter_color_other _ _ l t hf' hq hcol]
    unfold alternating at ha ⊢
    rw [List.chain'_append]
    refine ⟨ha, List.chain'_singleton _, fun x hx y hy => ?_⟩
    simp only [List.head?_cons, Option.mem_def, Option.some.injEq] at hy
    simp only [List.getLast?_concat, Option.mem_def, Option.some.injEq] at hx
    subst hx hy
    exact hcol

theorem alternating_leave (w : wb_t) (c : color_t) (ha : alternating w.queue) :
    alternating (leave_color w c).queue := by
  unfold leave_color
  simp only
  split
  · cases hq : w.queue with
    | nil => simp [alternating]
    | cons g rest =>
      rw [hq] at ha
      unfold alternating at ha ⊢
      simp only
      rw [List.chain'_cons'] at ha ⊢
      exact ha
  · exact ha

theorem alternating_step (w : wb_t) (e : Event) (ha : alternating w.queue) :
    alternating (wb_step w e).queue := by
  cases e with
  | enter c => exact alternating_enter w c ha
  | wake i c => exact alternating_wake w i c ha
  | leave c => exact alternating_leave w c ha

theorem alternating_foldl (es : List Event) (w : wb_t) (ha : alternating w.queue) :
    alternating (es.foldl wb_step w).queue := by
  induction es generalizing w with
  | nil => exact ha
  | cons e es ih => exact ih _ (alternating_step w e ha)

/-- The schedules of `run` are sequences of `wb_step`s. -/
theorem run_eq_foldl {s s' : Sys} (es : List Event) (h : run s es = some s') :
    s'.w = es.foldl wb_step s.w := by
  induction es generalizing s with
  | nil =>
    simp only [run, Option.some.injEq] at h
    rw [← h]; rfl
  | cons e es ih =>
    simp only [run] at h
    split at h
    · exact absurd h (by simp)
    next s1 h1 =>
    rw [ih h, List.foldl_cons]
    congr 1
    cases e with
    | enter c =>
      simp only [step] at h1
      split at h1
      · exact absurd h1 (by simp)
      · split at h1 <;> rename_i heq <;> simp only [Option.some.injEq] at h1 <;>
          subst h1 <;> simp only [wb_step, heq]
        cases c <;> rfl
    | wake i c =>
      simp only [step] at h1
      split at h1
      · exact absurd h1 (by simp)
      · split at h1
        · split at h1 <;> rename_i heq <;> simp only [Option.some.injEq] at h1 <;>
            subst h1 <;> simp only [wb_step, heq]
          cases c <;> rfl
        · exact absurd h1 (by simp)
    | leave c =>
      simp only [step] at h1
      split at h1
      · simp only [Option.some.injEq] at h1
        subst h1
        cases c <;> rfl
      · exact absurd h1 (by simp)

/-- C4 (queue alternation): after any sequence of `enter_color` / `leave_color`
critical sections run from `wb_init`, whatever the colors passed and whoever
calls `leave_color`, no two adjacent groups in the queue have the same color. -/
theorem queue_alternation (es : List Event) :
    (es.foldl wb_step wb_init).queue.Chain' (fun a b => a.color ≠ b.color) :=
  alternating_foldl es wb_init (by simp [alternating, wb_init])

/-! ## Scenarios -/

theorem run_append (s : Sys) (es fs : List Event) :
    run s (es ++ fs) = (run s es).bind (fun s1 => run s1 fs) := by
  induction es generalizing s with
  | nil => rfl
  | cons e es ih =>
    simp only [List.cons_append, run]
    cases step s e with
    | none => rfl
    | some s1 => exact ih s1

theorem run_append_some {s s1 s2 : Sys} {es fs : List Event} (h1 : run s es = some s1)
    (h2 : run s1 fs = some s2) : run s (es ++ fs) = some s2 := by
  rw [run_append, h1]; exact h2

theorem run_cons_some {s s1 : Sys} {e : Event} (es : List Event) (h : step s e = some s1) :
    run s (e :: es) = run s1 es := by
  simp only [run, h]

theorem crowd_zero (c : color_t) (w : wb_t) :
    crowd c 0 w = { w := w, in_white := 0, in_black := 0 } := by
  simp [crowd]

/-- A thread of color `c` gets in at once when the resource is free or used by
`c` with an empty queue. -/
theorem step_enter_held (c a : color_t) (k : Nat) (hc : c = WHITE ∨ c = BLACK)
    (ha : a = NONE ∨ a = c) :
    step (crowd c k (held a k)) (Event.enter c) = some (crowd c (k + 1) (held c (k + 1))) := by
  have hf : fast_path (held a k) c = true := by
    rw [fast_path_iff]
    rcases ha with h | h
    · exact Or.inl h
    · exact Or.inr ⟨h, fun g hg => by simp [held] at hg⟩
  have hne : c ≠ NONE := by rcases hc with h | h <;> simp [h]
  simp only [step, hne, if_false, crowd, enter_color_fast _ _ hf]
  rcases hc with h | h <;> subst h <;> simp [Sys.enter, held]

theorem run_enter_held (c : color_t) (j : Nat) (hc : c = WHITE ∨ c = BLACK) :
    ∀ (a : color_t) (k : Nat), a = NONE ∨ a = c →
      run (crowd c k (held a k)) (List.replicate (j + 1) (Event.enter c)) =
        some (crowd c (k + (j + 1)) (held c (k + (j + 1)))) := by
  induction j with
  | zero =>
    intro a k ha
    exact (run_cons_some [] (step_enter_held c a k hc ha)).trans rfl
  | succ j ih =>
    intro a k ha
    rw [List.replicate_succ, run_cons_some _ (step_enter_held c a k hc ha),
      ih c (k + 1) (Or.inr rfl), Nat.add_assoc, Nat.add_comm 1]

/-- A thread leaves and is not the last one inside: only the count changes. -/
theorem step_leave_more (c a : color_t) (q : List group_t) (k : Nat)
    (hc : c = WHITE ∨ c = BLACK) :
    step (crowd c (k + 2) { queue := q, active_color := a, active_count := ((k + 2 : Nat) : Int) })
        (Event.leave c) =
      some (crowd c (k + 1)
        { queue := q, active_color := a, active_count := ((k + 1 : Nat) : Int) }) := by
  have hl : leave_color
      { queue := q, active_color := a, active_count := ((k + 2 : Nat) : Int) } c =
      { queue := q, active_color := a, active_count := ((k + 1 : Nat) : Int) } := by
    have : ¬ (((k + 2 : Nat) : Int) - 1 = 0) := by omega
    simp only [leave_color, this, if_false]
    congr 1
    omega
  rcases hc with h | h <;> subst h <;>
    simp only [step, crowd, Sys.inside, Sys.depart, hl] <;> simp

theorem run_leave_more (c a : color_t) (q : List group_t) (hc : c = WHITE ∨ c = BLACK)
    (j : Nat) :
    run (crowd c (j + 1)
        { queue := q, active_color := a, active_count := ((j + 1 : Nat) : Int) })
        (List.replicate j (Event.leave c)) =
      some (crowd c 1 { queue := q, active_color := a, active_count := 1 }) := by
  induction j with
  | zero => rfl
  | succ j ih =>
    rw [List.replicate_succ, run_cons_some _ (step_leave_more c a q j hc)]
    exact ih

/-- The last thread inside leaves an empty queue: the controller is idle. -/
theorem step_leave_idle (c a : color_t) (hc : c = WHITE ∨ c = BLACK) :
    step (crowd c 1 { queue := [], active_color := a, active_count := 1 }) (Event.leave c) =
      some sys_init := by
  rcases hc with h | h <;> subst h <;>
    simp [step, crowd, Sys.inside, Sys.depart, leave_color, sys_init, wb_init]

/-- The last thread inside leaves a queue: its head group is released. -/
theorem step_leave_release (c a : color_t) (g : group_t) (rest : List group_t)
    (hc : c = WHITE ∨ c = BLACK) :
    step (crowd c 1 { queue := g :: rest, active_color := a, active_count := 1 })
        (Event.leave c) =
      some (crowd c 0
        { queue := { g with to_enter := g.waiting } :: rest, active_color := a,
          active_count := 0 }) := by
  rcases hc with h | h <;> subst h <;>
    simp [step, crowd, Sys.inside, Sys.depart, leave_color]

theorem run_leave_idle (c : color_t) (hc : c = WHITE ∨ c = BLACK) (j : Nat) :
    run (crowd c (j + 1) (held c (j + 1))) (List.replicate (j + 1) (Event.leave c)) =
      some sys_init := by
  rw [List.replicate_succ']
  refine run_append_some (run_leave_more c c [] hc j) ?_
  exact (run_cons_some [] (step_leave_idle c c hc)).trans rfl

/-- C7 (scenario A, any number of threads): from the state `wb_init` produces,
`n >= 1` calls `enter_color(c)` in a row, `c` being `WHITE` or `BLACK`, all
return at once (every one finds the fast path open; the queue stays empty,
`active_color == c`, `active_count == n`, `n` threads inside), and `n` calls
`leave_color(c)` after them lead back to the idle state of `wb_init`. -/
theorem scenario_A (n : Nat) (c : color_t) (hn : 1 ≤ n) (hc : c = WHITE ∨ c = BLACK) :
    run sys_init (List.replicate n (Event.enter c)) =
        some (crowd c n { queue := [], active_color := c, active_count := n }) ∧
      (∀ k, k < n → ∃ s, run sys_init (List.replicate k (Event.enter c)) = some s ∧
        fast_path s.w c = true ∧ s.w.queue = []) ∧
      run (crowd c n { queue := [], active_color := c, active_count := n })
        (List.replicate n (Event.leave c)) = some sys_init ∧
      sys_init.w = { queue := [], active_color := NONE, active_count := 0 } := by
  have hinit : sys_init = crowd c 0 (held NONE 0) := by
    simp [crowd_zero, sys_init, wb_init, held]
  have key : ∀ j, run sys_init (List.replicate (j + 1) (Event.enter c)) =
      some (crowd c (j + 1) (held c (j + 1))) := by
    intro j
    rw [hinit, run_enter_held c j hc NONE 0 (Or.inl rfl), Nat.zero_add]
  obtain ⟨m, rfl⟩ : ∃ m, n = m + 1 := ⟨n - 1, by omega⟩
  refine ⟨key m, fun k _ => ?_, run_leave_idle c hc m, rfl⟩
  cases k with
  | zero => exact ⟨sys_init, rfl, rfl, rfl⟩
  | succ k =>
    refine ⟨_, key k, ?_, rfl⟩
    rw [fast_path_iff]
    exact Or.inr ⟨rfl, fun g hg => by simp [crowd, held] at hg⟩

/-- Witness of C7: two white threads get in at once and leave again. -/
theorem scenario_A_witness :
    1 ≤ 2 ∧ (WHITE = WHITE ∨ WHITE = BLACK) ∧
      (run sys_init (List.replicate 2 (Event.enter WHITE)) =
          some (crowd WHITE 2 { queue := [], active_color := WHITE, active_count := 2 }) ∧
        (∀ k, k < 2 → ∃ s, run sys_init (List.replicate k (Event.enter WHITE)) = some s ∧
          fast_path s.w WHITE = true ∧ s.w.queue = []) ∧
        run (crowd WHITE 2 { queue := [], active_color := WHITE, active_count := 2 })
          (List.replicate 2 (Event.leave WHITE)) = some sys_init ∧
        sys_init.w = { queue := [], active_color := NONE, active_count := 0 }) :=
  ⟨by decide, Or.inl rfl, scenario_A 2 WHITE (by decide) (Or.inl rfl)⟩

/-- The first thread of color `b` that arrives while `a` holds the resource
with an empty queue opens a group and blocks. -/
theorem step_enter_block_first (a b : color_t) (m : Nat) (w : wb_t) (ha : a ≠ NONE)
    (hb : b ≠ NONE) (hab : a ≠ b) (hw : w.active_color = a) (hq : w.queue = []) :
    step (crowd a m w) (Event.enter b) =
      some (crowd a m { w with queue := [batch b 1 0] }) := by
  have hf : fast_path w b = false := by
    rw [← Bool.not_eq_true, fast_path_iff, hw]
    rintro (h | ⟨h, _⟩)
    · exact ha h
    · exact hab h
  simp only [step, hb, if_false, crowd, enter_color_nil _ _ hf hq]
  rfl

/-- A further thread of color `b` joins the tail group of color `b`, which is
not released, and blocks. -/
theorem step_enter_block_more (a b : color_t) (m j : Nat) (w : wb_t) (l : List group_t)
    (hb : b ≠ NONE) (hf : fast_path w b = false) (hq : w.queue = l ++ [batch b j 0]) :
    step (crowd a m w) (Event.enter b) =
      some (crowd a m { w with queue := l ++ [batch b (j + 1) 0] }) := by
  simp only [step, hb, if_false, crowd, enter_color_join _ _ l (batch b j 0) hf hq rfl rfl]
  simp [batch, List.replicate_succ]

theorem run_enter_block (a b : color_t) (m : Nat) (ha : a ≠ NONE) (hb : b ≠ NONE)
    (hab : a ≠ b) (j : Nat) :
    run (crowd a m { queue := [], active_color := a, active_count := m })
        (List.replicate (j + 1) (Event.enter b)) =
      some (crowd a m { queue := [batch b (j + 1) 0], active_color := a, active_count := m }) := by
  induction j with
  | zero =>
    exact (run_cons_some [] (step_enter_block_first a b m _ ha hb hab rfl rfl)).trans rfl
  | succ j ih =>
    rw [List.replicate_succ', run_append, ih]
    have hf : fast_path
        { queue := [batch b (j + 1) 0], active_color := a, active_count := (m : Int) }
        b = false := by
      rw [← Bool.not_eq_true, fast_path_iff]
      rintro (h | ⟨h, _⟩)
      · exact ha h
      · exact hab h
    exact (run_cons_some [] (step_enter_block_more a b m (j + 1) _ [] hb hf rfl)).trans rfl

/-- A blocked thread of a released one-group queue gets in; others remain. -/
theorem step_wake_more (a b : color_t) (i j : Nat) (hb : b = WHITE ∨ b = BLACK) :
    step
        (crowd b i
          { queue := [batch b (j + 2) (j + 2)], active_color := a, active_count := i })
        (Event.wake 0 b) =
      some
        (crowd b (i + 1)
          { queue := [batch b (j + 1) (j + 1)], active_color := b,
            active_count := ((i + 1 : Nat) : Int) }) := by
  have hw : enter_color_wake
      { queue := [batch b (j + 2) (j + 2)], active_color := a, active_count := (i : Int) }
      0 b =
      ({ queue := [batch b (j + 1) (j + 1)], active_color := b,
         active_count := ((i + 1 : Nat) : Int) }, outcome.returned) := by
    have h0 : ¬ (((j + 2 : Nat) : Int) = 0) := by omega
    simp only [enter_color_wake, List.getElem?_cons_zero, batch, h0, if_false]
    rw [enter_color_finish_head _ _ [] b rfl]
    have h1 : ¬ (((j + 2 : Nat) : Int) - 1 = 0 ∧ ((j + 2 : Nat) : Int) - 1 = 0) := by omega
    simp only [h1, if_false, List.replicate_succ, List.erase_cons_head]
    congr 3
    · congr 1 <;> omega
  rcases hb with h | h <;> subst h <;>
    simp only [step, crowd, List.getElem?_cons_zero, batch, List.replicate_succ,
      List.mem_cons, true_or, if_true] <;>
    simp only [batch, List.replicate_succ] at hw <;>
    simp only [hw, Sys.enter] <;> simp

/-- The last blocked thread of a released one-group queue gets in and unlinks
the group: head and tail are cleared. -/
theorem step_wake_last (a b : color_t) (i : Nat) (hb : b = WHITE ∨ b = BLACK) :
    step (crowd b i { queue := [batch b 1 1], active_color := a, active_count := i })
        (Event.wake 0 b) =
      some (crowd b (i + 1) (held b (i + 1))) := by
  have hw : enter_color_wake
      { queue := [batch b 1 1], active_color := a, active_count := (i : Int) } 0 b =
      (held b (i + 1), outcome.returned) := by
    simp only [enter_color_wake, List.getElem?_cons_zero, batch]
    rw [enter_color_finish_head _ _ [] b rfl]
    simp [held]
  rcases hb with h | h <;> subst h <;>
    simp only [step, crowd, List.getElem?_cons_zero, batch, List.replicate_succ,
      List.mem_cons, true_or, if_true] <;>
    simp only [batch, List.replicate_succ] at hw <;>
    simp only [hw, Sys.enter] <;> simp

theorem run_wake (b : color_t) (hb : b = WHITE ∨ b = BLACK) (j : Nat) :
    ∀ (a : color_t) (i : Nat),
      run
          (crowd b i
            { queue := [batch b (j + 1) (j + 1)], active_color := a, active_count := i })
          (List.replicate (j + 1) (Event.wake 0 b)) =
        some (crowd b (i + (j + 1)) (held b (i + (j + 1)))) := by
  induction j with
  | zero =>
    intro a i
    exact (run_cons_some [] (step_wake_last a b i hb)).trans rfl
  | succ j ih =>
    intro a i
    rw [List.replicate_succ, run_cons_some _ (step_wake_more a b i j hb), ih b (i + 1),
      Nat.add_assoc, Nat.add_comm 1]

/-- C8 (scenario C, any sizes): let `a` and `b` be the two colors, `m >= 1`
threads of color `a` inside and `k >= 1` threads of color `b` blocked in the one
queued group (`waiting == k`, `to_enter == 0`), a state the arrival of the `m`
and then of the `k` threads leads to. After `m` calls `leave_color(a)` the
group has `to_enter == k`; after the `k` blocked threads took their grants
`active_color == b`, `active_count == k` and the queue is empty; and `k` calls
`leave_color(b)` lead back to the idle state. -/
theorem scenario_C (m k : Nat) (a b : color_t) (hm : 1 ≤ m) (hk : 1 ≤ k)
    (ha : a = WHITE ∨ a = BLACK) (hb : b = WHITE ∨ b = BLACK) (hab : a ≠ b) :
    run sys_init (List.replicate m (Event.enter a) ++ List.replicate k (Event.enter b)) =
        some (crowd a m { queue := [batch b k 0], active_color := a, active_count := m }) ∧
      run (crowd a m { queue := [batch b k 0], active_color := a, active_count := m })
          (List.replicate m (Event.leave a)) =
        some (crowd b 0 { queue := [batch b k k], active_color := a, active_count := 0 }) ∧
      run (crowd b 0 { queue := [batch b k k], active_color := a, active_count := 0 })
          (List.replicate k (Event.wake 0 b)) =
        some (crowd b k { queue := [], active_color := b, active_count := k }) ∧
      run (crowd b k { queue := [], active_color := b, active_count := k })
          (List.replicate k (Event.leave b)) = some sys_init := by
  obtain ⟨m, rfl⟩ : ∃ m', m = m' + 1 := ⟨m - 1, by omega⟩
  obtain ⟨k, rfl⟩ : ∃ k', k = k' + 1 := ⟨k - 1, by omega⟩
  have hane : a ≠ NONE := by rcases ha with h | h <;> simp [h]
  have hbne : b ≠ NONE := by rcases hb with h | h <;> simp [h]
  have hinit : sys_init = crowd a 0 (held NONE 0) := by
    simp [crowd_zero, sys_init, wb_init, held]
  refine ⟨?_, ?_, ?_, run_leave_idle b hb k⟩
  · refine run_append_some ?_ (run_enter_block a b (m + 1) hane hbne hab k)
    rw [hinit, run_enter_held a m ha NONE 0 (Or.inl rfl), Nat.zero_add]
    rfl
  · rw [List.replicate_succ']
    refine run_append_some (run_leave_more a a _ ha m) ?_
    refine (run_cons_some [] (step_leave_release a a _ _ ha)).trans ?_
    simp [run, crowd_zero, batch]
  · have := run_wake b hb k a 0
    simp only [Nat.zero_add] at this
    exact this

/-- Witness of C8: three white threads inside, two black ones in one group. -/
theorem scenario_C_witness :
    1 ≤ 3 ∧ 1 ≤ 2 ∧ (WHITE = WHITE ∨ WHITE = BLACK) ∧ (BLACK = WHITE ∨ BLACK = BLACK) ∧
      WHITE ≠ BLACK ∧
      (run sys_init
            (List.replicate 3 (Event.enter WHITE) ++ List.replicate 2 (Event.enter BLACK)) =
          some (crowd WHITE 3
            { queue := [batch BLACK 2 0], active_color := WHITE, active_count := 3 }) ∧
        run (crowd WHITE 3
              { queue := [batch BLACK 2 0], active_color := WHITE, active_count := 3 })
            (List.replicate 3 (Event.leave WHITE)) =
          some (crowd BLACK 0
            { queue := [batch BLACK 2 2], active_color := WHITE, active_count := 0 }) ∧
        run (crowd BLACK 0
              { queue := [batch BLACK 2 2], active_color := WHITE, active_count := 0 })
            (List.replicate 2 (Event.wake 0 BLACK)) =
          some (crowd BLACK 2 { queue := [], active_color := BLACK, active_count := 2 }) ∧
        run (crowd BLACK 2 { queue := [], active_color := BLACK, active_count := 2 })
          (List.replicate 2 (Event.leave BLACK)) = some sys_init) :=
  ⟨by decide, by decide, Or.inl rfl, Or.inr rfl, by decide,
    scenario_C 3 2 WHITE BLACK (by decide) (by decide) (Or.inl rfl) (Or.inr rfl) (by decide)⟩

/-- A thread blocked behind the head wakes up in vain when no group behind the
head is released. -/
theorem wake_behind_noop (r s' : Sys) (i : Nat) (c : color_t)
    (hbeh : ∀ g ∈ r.w.queue.tail, g.to_enter = 0)
    (h : step r (Event.wake (i + 1) c) = some s') : s' = r := by
  simp only [step] at h
  split at h
  · exact absurd h (by simp)
  next g hg =>
  have hte : g.to_enter = 0 := by
    cases hq : r.w.queue with
    | nil => simp [hq] at hg
    | cons x rest =>
      rw [hq, List.getElem?_cons_succ] at hg
      exact hbeh g (by rw [hq]; exact List.getElem?_mem hg)
  have hw : enter_color_wake r.w (i + 1) c = (r.w, outcome.blocked) := by
    simp [enter_color_wake, hg, hte]
  rw [hw] at h
  split at h
  · simp only [Option.some.injEq] at h
    exact h.symm
  · exact absurd h (by simp)

/-- C9, as stated, fails: with a white holder the first of the arrivals
white, black, white, black, white, black gets in at once, and five groups are
queued, not six. -/
theorem scenario_D_counterexample :
    run sys_init [Event.enter WHITE] = some (crowd WHITE 1 (held WHITE 1)) ∧
      run (crowd WHITE 1 (held WHITE 1)) ((arrivals WHITE BLACK).map Event.enter) =
        some (crowd WHITE 2
          { queue := [lone_group BLACK, lone_group WHITE, lone_group BLACK,
                      lone_group WHITE, lone_group BLACK],
            active_color := WHITE, active_count := 2 }) :=
  ⟨rfl, rfl⟩

/-- C9 amended (scenario D): one thread of color `b` holds the resource, the
queue is empty, and six threads arrive with colors `a, b, a, b, a, b`, `a` being
the other color. Then the queue holds six groups with one waiting thread each,
of colors `a, b, a, b, a, b` from head to tail. Each time the thread inside
leaves, the head group alone is released: a wake-up of a thread further back
changes nothing, and the thread of the head group gets in and unlinks its
group. So the six get in one at a time, in arrival order. -/
theorem scenario_D (a b : color_t) (ha : a = WHITE ∨ a = BLACK) (hb : b = WHITE ∨ b = BLACK)
    (hab : a ≠ b) :
    run sys_init [Event.enter b] = some (crowd b 1 (held b 1)) ∧
      run (crowd b 1 (held b 1)) ((arrivals a b).map Event.enter) = some (lined_up a b 0) ∧
      (lined_up a b 0).w.queue =
        [lone_group a, lone_group b, lone_group a, lone_group b, lone_group a,
         lone_group b] ∧
      (∀ j, j < 6 →
        step (lined_up a b j) (Event.leave (turn b a j)) = some (handed_over a b j) ∧
        (∀ g, (handed_over a b j).w.head = some g →
          g.color = turn a b j ∧ g.to_enter = 1 ∧ g.waiting = 1) ∧
        (∀ i c s', step (handed_over a b j) (Event.wake (i + 1) c) = some s' →
          s' = handed_over a b j) ∧
        step (handed_over a b j) (Event.wake 0 (turn a b j)) = some (lined_up a b (j + 1))) ∧
      lined_up a b 6 = crowd b 1 (held b 1) := by
  have main : ∀ x y : color_t, (x = WHITE ∧ y = BLACK) ∨ (x = BLACK ∧ y = WHITE) →
      run sys_init [Event.enter y] = some (crowd y 1 (held y 1)) ∧
      run (crowd y 1 (held y 1)) ((arrivals x y).map Event.enter) = some (lined_up x y 0) ∧
      (lined_up x y 0).w.queue =
        [lone_group x, lone_group y, lone_group x, lone_group y, lone_group x,
         lone_group y] ∧
      (∀ j, j < 6 →
        step (lined_up x y j) (Event.leave (turn y x j)) = some (handed_over x y j) ∧
        (∀ g, (handed_over x y j).w.head = some g →
          g.color = turn x y j ∧ g.to_enter = 1 ∧ g.waiting = 1) ∧
        (∀ i c s', step (handed_over x y j) (Event.wake (i + 1) c) = some s' →
          s' = handed_over x y j) ∧
        step (handed_over x y j) (Event.wake 0 (turn x y j)) = some (lined_up x y (j + 1))) ∧
      lined_up x y 6 = crowd y 1 (held y 1) := by
    rintro x y (⟨rfl, rfl⟩ | ⟨rfl, rfl⟩)
    all_goals
      refine ⟨rfl, rfl, rfl, fun j hj => ?_, rfl⟩
      interval_cases j <;>
        refine ⟨rfl, fun g hg => ?_, fun i c s' h => wake_behind_noop _ s' i c ?_ h, rfl⟩
      all_goals first
        | (simp only [wb_t.head, handed_over, lined_up, arrivals, crowd, leave_color,
            lone_group, turn] at hg
           simp at hg
           subst hg
           decide)
        | decide
  rcases ha with rfl | rfl <;> rcases hb with rfl | rfl
  · exact absurd rfl hab
  · exact main WHITE BLACK (Or.inl ⟨rfl, rfl⟩)
  · exact main BLACK WHITE (Or.inr ⟨rfl, rfl⟩)
  · exact absurd rfl hab

/-- Witness of C9 amended: a black holder, arrivals starting with white. -/
theorem scenario_D_witness :
    (WHITE = WHITE ∨ WHITE = BLACK) ∧ (BLACK = WHITE ∨ BLACK = BLACK) ∧ WHITE ≠ BLACK ∧
      (run sys_init [Event.enter BLACK] = some (crowd BLACK 1 (held BLACK 1)) ∧
        run (crowd BLACK 1 (held BLACK 1)) ((arrivals WHITE BLACK).map Event.enter) =
          some (lined_up WHITE BLACK 0) ∧
        (lined_up WHITE BLACK 0).w.queue =
          [lone_group WHITE, lone_group BLACK, lone_group WHITE, lone_group BLACK,
           lone_group WHITE, lone_group BLACK] ∧
        (∀ j, j < 6 →
          step (lined_up WHITE BLACK j) (Event.leave (turn BLACK WHITE j)) =
            some (handed_over WHITE BLACK j) ∧
          (∀ g, (handed_over WHITE BLACK j).w.head = some g →
            g.color = turn WHITE BLACK j ∧ g.to_enter = 1 ∧ g.waiting = 1) ∧
          (∀ i c s', step (handed_over WHITE BLACK j) (Event.wake (i + 1) c) = some s' →
            s' = handed_over WHITE BLACK j) ∧
          step (handed_over WHITE BLACK j) (Event.wake 0 (turn WHITE BLACK j)) =
            some (lined_up WHITE BLACK (j + 1))) ∧
        lined_up WHITE BLACK 6 = crowd BLACK 1 (held BLACK 1)) :=
  ⟨Or.inl rfl, Or.inr rfl, by decide,
    scenario_D WHITE BLACK (Or.inl rfl) (Or.inr rfl) (by decide)⟩

/-! ## Starvation -/

/-- A blocked thread wakes up in vain when no group is released. -/
theorem wake_noop (r s' : Sys) (i : Nat) (c : color_t)
    (hall : ∀ g ∈ r.w.queue, g.to_enter = 0)
    (h : step r (Event.wake i c) = some s') : s' = r := by
  simp only [step] at h
  split at h
  · exact absurd h (by simp)
  next g hg =>
  have hw : enter_color_wake r.w i c = (r.w, outcome.blocked) := by
    simp [enter_color_wake, hg, hall g (List.getElem?_mem hg)]
  rw [hw] at h
  split at h
  · simp only [Option.some.injEq] at h
    exact h.symm
  · exact absurd h (by simp)

theorem starved_enter_black (n k : Nat) :
    step (starved n (k + 1)) (Event.enter BLACK) = some (starved n (k + 2)) := by
  have hf : fast_path (starved n (k + 1)).w BLACK = true := by
    rw [fast_path_iff]
    exact Or.inr ⟨rfl, fun g hg => by
      simp only [starved, crowd, List.head?_cons, Option.some.injEq] at hg
      rw [← hg]; rfl⟩
  simp only [step, enter_color_fast _ _ hf]
  simp [starved, crowd, Sys.enter]
  ring

theorem starved_leave_black (n k : Nat) :
    step (starved n (k + 2)) (Event.leave BLACK) = some (starved n (k + 1)) :=
  step_leave_more BLACK BLACK _ k (Or.inr rfl)

theorem starved_enter_white (n k : Nat) :
    step (starved n k) (Event.enter WHITE) = some (starved (n + 1) k) := by
  have hf : fast_path (starved n k).w WHITE = false := by
    rw [← Bool.not_eq_true, fast_path_iff]
    simp [starved, crowd]
  exact step_enter_block_more BLACK WHITE k (n + 1) _ [batch BLACK 1 0] (by decide) hf rfl

theorem starved_run (n : Nat) : run sys_init (starve_schedule n) = some (starved n 1) := by
  induction n with
  | zero => rfl
  | succ n ih =>
    refine run_append_some ih ?_
    rw [starve_round, run_cons_some _ (starved_enter_black n 0),
      run_cons_some _ (starved_leave_black n 0), run_cons_some _ (starved_enter_white n 1)]
    rfl

/-- C10 (no starvation) fails on the code. The schedule `starve_schedule` goes
on for ever, with one black and one white arrival per round and every thread
that got in leaving in a later round; yet at the end of every round `n` the
white thread that blocked in `starve_start` is still blocked, together with the
`n` white threads that arrived after it and the first black thread: nobody
white is inside, no wake-up lets a blocked thread proceed, neither at the end
of a round nor in the middle of the next one, and the black thread that arrives
next gets in at once, ahead of all of them. -/
theorem starvation_schedule (n : Nat) :
    run sys_init (starve_schedule n) = some (starved n 1) ∧
      (starved n 1).in_white = 0 ∧
      (starved n 1).w.queue = [batch BLACK 1 0, batch WHITE (n + 1) 0] ∧
      (∀ i c s', step (starved n 1) (Event.wake i c) = some s' → s' = starved n 1) ∧
      step (starved n 1) (Event.enter BLACK) = some (starved n 2) ∧
      (∀ i c s', step (starved n 2) (Event.wake i c) = some s' → s' = starved n 2) ∧
      step (starved n 2) (Event.leave BLACK) = some (starved n 1) ∧
      step (starved n 1) (Event.enter WHITE) = some (starved (n + 1) 1) := by
  refine ⟨starved_run n, rfl, rfl, fun i c s' h => wake_noop _ s' i c ?_ h,
    starved_enter_black n 0, fun i c s' h => wake_noop _ s' i c ?_ h,
    starved_leave_black n 0, starved_enter_white n 1⟩
  all_goals
    intro g hg
    simp only [starved, crowd, List.mem_cons, List.mem_singleton, List.not_mem_nil,
      or_false] at hg
    rcases hg with rfl | rfl <;> rfl

/-! ## The two backends -/

theorem windows_finish (w : wb_t) (i : Nat) (c : color_t) :
    Windows.enter_color_finish w i c = enter_color_finish w i c := by
  unfold Windows.enter_color_finish enter_color_finish
  cases w.queue[i]? <;> rfl

theorem windows_enter (w : wb_t) (c : color_t) : Windows.enter_color w c = enter_color w c := by
  by_cases hf : fast_path w c = true
  · rw [enter_color_fast _ _ hf]
    rw [fast_path_iff] at hf
    have hcond : w.active_color = NONE ∨
        (w.active_color = c ∧
          (w.queue.head? = none ∨ w.queue.head?.map group_t.color = some c)) := by
      rcases hf with h | ⟨h, hall⟩
      · exact Or.inl h
      · refine Or.inr ⟨h, ?_⟩
        cases hq : w.queue.head? with
        | none => exact Or.inl rfl
        | some g => exact Or.inr (by simp [hall g hq])
    simp only [Windows.enter_color, hcond, if_true]
  · have hf' : fast_path w c = false := by simpa using hf
    have hcond : ¬ (w.active_color = NONE ∨
        (w.active_color = c ∧
          (w.queue.head? = none ∨ w.queue.head?.map group_t.color = some c))) := by
      intro h
      apply hf
      rw [fast_path_iff]
      rcases h with h | ⟨h, hh⟩
      · exact Or.inl h
      · refine Or.inr ⟨h, fun g hg => ?_⟩
        rcases hh with hh | hh
        · rw [hg] at hh; exact absurd hh (by simp)
        · rw [hg] at hh; simpa using hh
    simp only [Windows.enter_color, hcond, if_false, windows_finish]
    rcases List.eq_nil_or_concat w.queue with hq | ⟨l, t, hq⟩
    · rw [enter_color_nil _ _ hf' hq, hq]
      simp [Windows.group_new, lone_group]
    rw [List.concat_eq_append] at hq
    by_cases hcol : t.color = c
    · by_cases hte : t.to_enter = 0
      · rw [enter_color_join _ _ l t hf' hq hcol hte, hq]
        simp [hcol, hte]
      · rw [enter_color_grab _ _ l t hf' hq hcol hte, hq]
        simp [hcol, hte]
    · rw [enter_color_other _ _ l t hf' hq hcol, hq]
      simp [hcol, Windows.group_new, lone_group]

theorem windows_wake (w : wb_t) (i : Nat) (c : color_t) :
    Windows.enter_color_wake w i c = enter_color_wake w i c := by
  unfold Windows.enter_color_wake enter_color_wake
  cases w.queue[i]? with
  | none => rfl
  | some g => simp only [windows_finish]

theorem windows_leave (w : wb_t) (c : color_t) :
    Windows.leave_color w c = leave_color w c := by
  unfold Windows.leave_color leave_color
  by_cases h : w.active_count - 1 = 0
  · cases hq : w.queue <;> simp [h, hq]
  · simp [h]

/-- C18 (platform equivalence): `wb_init`, `enter_color` (up to its return or
first wait, and from a wake-up on) and `leave_color` of the Windows file do to
the state `(active_color, active_count, queue)` exactly what those of the Linux
file do, for every state and every color. -/
theorem platform_equivalence :
    Windows.wb_init = wb_init ∧
      (∀ c, Windows.group_new c = group_new c) ∧
      (∀ w c, Windows.enter_color w c = enter_color w c) ∧
      (∀ w i c, Windows.enter_color_wake w i c = enter_color_wake w i c) ∧
      (∀ w c, Windows.leave_color w c = leave_color w c) :=
  ⟨rfl, fun _ => rfl, windows_enter, windows_wake, windows_leave⟩

/-! ## Misuse: unbalanced release, teardown while busy -/

theorem destroy_groups_idle (q : List group_t) (h : ∀ g ∈ q, g.cond = []) :
    destroy_groups q = some q := by
  induction q with
  | nil => rfl
  | cons g q ih =>
    have hg : g.cond = [] := h g (by simp)
    have hq : destroy_groups q = some q := ih (fun x hx => h x (by simp [hx]))
    simp [destroy_groups, cond_destroy, hg, hq]

theorem free_groups_eq (q : List group_t) : Windows.free_groups q = q := by
  induction q with
  | nil => rfl
  | cons g q ih => simp [Windows.free_groups, ih]

/-- In a reachable state every queued group has a blocked thread, so the Linux
`wb_cleanup` has no result as soon as the queue is not empty. -/
theorem cleanup_undefined {s : Sys} (hr : Reachable s) (hq : s.w.queue ≠ []) :
    wb_cleanup s.w = none := by
  have hs := hr.inv
  cases hq' : s.w.queue with
  | nil => exact absurd hq' hq
  | cons g rest =>
    have hok := hs.groups g (by simp [hq'])
    have hne : g.cond ≠ [] := by
      intro h
      have h1 := hok.waiting_pos
      have h2 := hok.waiting_eq
      rw [h] at h2
      simp only [List.length_nil, Nat.cast_zero] at h2
      omega
    simp [wb_cleanup, hq', destroy_groups, cond_destroy, hne]

/-- C11, as stated, fails: with nobody inside, `leave_color` of either file
returns normally and leaves `active_count == -1`. -/
theorem unbalanced_release_counterexample :
    wb_init.active_count = 0 ∧
      leave_color wb_init WHITE =
        { queue := [], active_color := NONE, active_count := -1 } ∧
      Windows.leave_color Windows.wb_init WHITE =
        { queue := [], active_color := NONE, active_count := -1 } :=
  ⟨rfl, rfl, rfl⟩

/-- C11 amended (unbalanced release goes unnoticed): `leave_color`, of either
file, has no failure path; called in a state with `active_count == 0` it
returns normally with `active_count == -1` and the queue and `active_color`
as they were. -/
theorem unbalanced_release (w : wb_t) (c : color_t) (h : w.active_count = 0) :
    leave_color w c = { w with active_count := -1 } ∧
      Windows.leave_color w c = { w with active_count := -1 } := by
  rw [windows_leave]
  have : leave_color w c = { w with active_count := -1 } := by
    simp [leave_color, h]
  exact ⟨this, this⟩

/-- Witness of C11 amended: a call of `leave_color` right after `wb_init`. -/
theorem unbalanced_release_witness :
    wb_init.active_count = 0 ∧
      (leave_color wb_init BLACK = { wb_init with active_count := -1 } ∧
        Windows.leave_color wb_init BLACK = { wb_init with active_count := -1 }) :=
  ⟨rfl, unbalanced_release wb_init BLACK rfl⟩

/-- C12, as stated, fails: with a white thread inside and an empty queue,
`wb_cleanup` of either file returns normally, and so does the Windows one with
a black thread blocked in the queue, after freeing its group. -/
theorem teardown_busy_counterexample :
    run sys_init [Event.enter WHITE] = some (crowd WHITE 1 (held WHITE 1)) ∧
      (held WHITE 1).active_count = 1 ∧
      wb_cleanup (held WHITE 1) = some (held WHITE 1, []) ∧
      Windows.wb_cleanup (held WHITE 1) = (held WHITE 1, []) ∧
      run sys_init [Event.enter WHITE, Event.enter BLACK] = some held_open ∧
      Windows.wb_cleanup held_open.w =
        ({ queue := [], active_color := WHITE, active_count := 1 }, [lone_group BLACK]) :=
  ⟨rfl, rfl, rfl, rfl, rfl, rfl⟩

/-- C12 amended (teardown has no busy check): `wb_cleanup` tests neither
`active_count` nor the queue. In the Linux file, in every state in which no
thread is blocked on a queued group, so in every state with an empty queue
whatever `active_count` is, it returns normally, destroys every queued group,
clears `head` and `tail`, and leaves `active_color` and `active_count` as they
were. In the Windows file it does so in every state. -/
theorem teardown_drains (w : wb_t) :
    ((∀ g ∈ w.queue, g.cond = []) →
        wb_cleanup w =
          some ({ queue := [], active_color := w.active_color,
                  active_count := w.active_count }, w.queue)) ∧
      (w.queue = [] → wb_cleanup w = some (w, [])) ∧
      (∀ r, wb_cleanup w = some r →
        r.1.head = none ∧ r.1.tail = none ∧ r.1.active_color = w.active_color ∧
          r.1.active_count = w.active_count ∧ r.2 = w.queue) ∧
      Windows.wb_cleanup w =
        ({ queue := [], active_color := w.active_color, active_count := w.active_count },
          w.queue) := by
  refine ⟨fun h => ?_, fun hq => ?_, fun r hr => ?_, ?_⟩
  · simp [wb_cleanup, destroy_groups_idle w.queue h]
  · cases w with
    | mk q a n =>
      simp only at hq
      subst hq
      rfl
  · have hsome : ∀ q ds, destroy_groups q = some ds → ds = q := by
      intro q
      induction q with
      | nil =>
        intro ds h
        simp only [destroy_groups, Option.some.injEq] at h
        exact h.symm
      | cons g q ih =>
        intro ds h
        simp only [destroy_groups, cond_destroy] at h
        split at h
        · exact absurd h (by simp)
        · next d hd =>
          split at hd
          · simp only [Option.some.injEq] at hd
            subst hd
            split at h
            · exact absurd h (by simp)
            · next ds' hds =>
              simp only [Option.some.injEq] at h
              rw [← h, ih ds' hds]
          · exact absurd hd (by simp)
    simp only [wb_cleanup] at hr
    split at hr
    · exact absurd hr (by simp)
    · next ds hds =>
      simp only [Option.some.injEq] at hr
      subst hr
      exact ⟨rfl, rfl, rfl, rfl, hsome _ _ hds⟩
  · simp [Windows.wb_cleanup, free_groups_eq]

/-- Witness of C12 amended: teardown with a white thread inside and nobody
queued. -/
theorem teardown_drains_witness :
    (∀ g ∈ (held WHITE 1).queue, g.cond = []) ∧
      wb_cleanup (held WHITE 1) =
        some ({ queue := [], active_color := (held WHITE 1).active_color,
                active_count := (held WHITE 1).active_count }, (held WHITE 1).queue) :=
  ⟨by simp [held], (teardown_drains (held WHITE 1)).1 (by simp [held])⟩

/-! ## Color symmetry -/

theorem swap_eq_iff (a b : color_t) : swap a = swap b ↔ a = b := by
  cases a <;> cases b <;> simp [swap]

theorem swap_eq_none_iff (a : color_t) : swap a = NONE ↔ a = NONE := by
  cases a <;> simp [swap]

theorem swap_injective : Function.Injective swap := fun a b h => (swap_eq_iff a b).1 h

theorem fast_path_swap (w : wb_t) (c : color_t) :
    fast_path (swap_wb w) (swap c) = fast_path w c := by
  rw [Bool.eq_iff_iff, fast_path_iff, fast_path_iff]
  simp only [swap_wb, swap_eq_none_iff, swap_eq_iff, List.head?_map]
  cases w.queue.head? with
  | none => simp
  | some h => simp [swap_group, swap_eq_iff]

theorem finish_swap (w : wb_t) (i : Nat) (c : color_t) :
    enter_color_finish (swap_wb w) i (swap c) = swap_wb (enter_color_finish w i c) := by
  unfold enter_color_finish
  simp only [swap_wb, List.getElem?_map]
  cases hg : w.queue[i]? with
  | none => rfl
  | some g =>
    simp only [Option.map_some', swap_group]
    split <;> simp [List.map_set, List.map_tail, swap_group]

theorem enter_swap (w : wb_t) (c : color_t) :
    enter_color (swap_wb w) (swap c) = (swap_wb (enter_color w c).1, (enter_color w c).2) := by
  by_cases hf : fast_path w c = true
  · rw [enter_color_fast _ _ hf, enter_color_fast _ _ (by rw [fast_path_swap]; exact hf)]
    rfl
  have hf' : fast_path w c = false := by simpa using hf
  have hfs : fast_path (swap_wb w) (swap c) = false := by rw [fast_path_swap]; exact hf'
  rcases List.eq_nil_or_concat w.queue with hq | ⟨l, t, hq⟩
  · rw [enter_color_nil _ _ hf' hq, enter_color_nil _ _ hfs (by simp [swap_wb, hq])]
    simp [swap_wb, lone_group, swap_group, hq]
  rw [List.concat_eq_append] at hq
  have hqs : (swap_wb w).queue = l.map swap_group ++ [swap_group t] := by
    simp [swap_wb, hq]
  by_cases hcol : t.color = c
  · have hcols : (swap_group t).color = swap c := by simp [swap_group, hcol]
    by_cases hte : t.to_enter = 0
    · rw [enter_color_join _ _ l t hf' hq hcol hte,
        enter_color_join _ _ _ _ hfs hqs hcols (by simpa [swap_group] using hte)]
      simp [swap_wb, swap_group]
    · rw [enter_color_grab _ _ l t hf' hq hcol hte,
        enter_color_grab _ _ _ _ hfs hqs hcols (by simpa [swap_group] using hte)]
      simp only [List.length_map, Prod.mk.injEq, and_true]
      rw [← finish_swap]
      simp [swap_wb, swap_group]
  · have hcols : (swap_group t).color ≠ swap c := by
      simpa [swap_group, swap_eq_iff] using hcol
    rw [enter_color_other _ _ l t hf' hq hcol, enter_color_other _ _ _ _ hfs hqs hcols]
    simp [swap_wb, lone_group, swap_group]

theorem wake_swap (w : wb_t) (i : Nat) (c : color_t) :
    enter_color_wake (swap_wb w) i (swap c) =
      (swap_wb (enter_color_wake w i c).1, (enter_color_wake w i c).2) := by
  unfold enter_color_wake
  simp only [swap_wb, List.getElem?_map]
  cases hg : w.queue[i]? with
  | none => rfl
  | some g =>
    simp only [Option.map_some', swap_group]
    split
    · rfl
    · simp only [Prod.mk.injEq, and_true]
      have := finish_swap { w with queue := w.queue.set i { g with cond := g.cond.erase c } } i c
      refine Eq.trans ?_ this
      congr 1
      simp [swap_wb, swap_group, List.map_set, List.map_erase swap_injective]

theorem leave_swap (w : wb_t) (c : color_t) :
    leave_color (swap_wb w) (swap c) = swap_wb (leave_color w c) := by
  unfold leave_color
  by_cases h : w.active_count - 1 = 0
  · cases hq : w.queue <;> simp [swap_wb, h, hq, swap_group, swap]
  · simp [swap_wb, h]

/-- C13 (color symmetry): let `swap` exchange `WHITE` and `BLACK` in
`active_color`, in the color of every queued group and in the colors of the
threads blocked on it. Each step of a call with the swapped color on the
swapped state gives the swapped result of the step on the state itself: the
first section of `enter_color` (fast path, enqueueing or immediate grant), a
wake-up with its grant consumption, and `leave_color`. -/
theorem color_symmetry (w : wb_t) (c : color_t) :
    swap_wb wb_init = wb_init ∧
      enter_color (swap_wb w) (swap c) = (swap_wb (enter_color w c).1, (enter_color w c).2) ∧
      (∀ i, enter_color_wake (swap_wb w) i (swap c) =
        (swap_wb (enter_color_wake w i c).1, (enter_color_wake w i c).2)) ∧
      leave_color (swap_wb w) (swap c) = swap_wb (leave_color w c) :=
  ⟨rfl, enter_swap w c, fun i => wake_swap w i c, leave_swap w c⟩

/-! ## `leave_color` and the decision of `enter_color` against their references -/

theorem leave_color_eq_ref (w : wb_t) (c : color_t) : leave_color w c = release_ref w := by
  unfold leave_color release_ref
  by_cases h : w.active_count - 1 = 0
  · cases hq : w.queue <;> simp [h, hq, List.modifyHead]
  · simp [h]

/-- C16 (`leave_color` is the reference release): for every state and every
color argument `leave_color` returns what the reference definition returns, so
the argument plays no part. `active_count` goes down by one; if it reaches `0`
and the queue is not empty, the head group gets `to_enter = waiting` and nothing
else changes; if it reaches `0` and the queue is empty, `active_color` becomes
`NONE`; otherwise `active_color` and the queue stay as they are. -/
theorem leave_color_refines (w : wb_t) (c : color_t) :
    leave_color w c = release_ref w ∧
      (∀ c', leave_color w c' = leave_color w c) ∧
      (leave_color w c).active_count = w.active_count - 1 ∧
      (w.active_count - 1 = 0 → ∀ g rest, w.queue = g :: rest →
        leave_color w c =
          { queue := { g with to_enter := g.waiting } :: rest,
            active_color := w.active_color, active_count := 0 }) ∧
      (w.active_count - 1 = 0 → w.queue = [] →
        leave_color w c = { queue := [], active_color := NONE, active_count := 0 }) ∧
      (w.active_count - 1 ≠ 0 →
        leave_color w c = { w with active_count := w.active_count - 1 }) := by
  refine ⟨leave_color_eq_ref w c, fun c' => ?_, ?_, fun h g rest hq => ?_, fun h hq => ?_,
    fun h => ?_⟩
  · rw [leave_color_eq_ref, leave_color_eq_ref]
  · unfold leave_color
    by_cases h : w.active_count - 1 = 0
    · cases hq : w.queue <;> simp [h, hq]
    · simp [h]
  · simp [leave_color, h, hq]
  · simp [leave_color, h, hq]
  · simp [leave_color, h]

/-- The first section of `enter_color` is its decision followed by the test of
the wait loop: the thread blocks on its group, or takes a grant at once. -/
theorem enter_color_after_decide (w : wb_t) (c : color_t) :
    enter_color w c =
      match enter_color_decide w c with
      | (w1, true) => (w1, outcome.returned)
      | (w1, false) =>
        match w1.queue.getLast? with
        | none => (w1, outcome.blocked)
        | some g =>
          if g.to_enter = 0 then
            ({ w1 with queue := set_last w1.queue { g with cond := c :: g.cond } },
              outcome.blocked)
          else (enter_color_finish w1 (w1.queue.length - 1) c, outcome.returned) := by
  by_cases hf : fast_path w c = true
  · simp [enter_color, enter_color_decide, hf]
  have hf' : fast_path w c = false := by simpa using hf
  simp only [enter_color_decide, hf', Bool.false_eq_true, if_false, enter_color_queue]
  rcases List.eq_nil_or_concat w.queue with hq | ⟨l, t, hq⟩
  · rw [enter_color_nil _ _ hf' hq]
    simp [hq, link_group_nil, group_new, set_last, lone_group]
  rw [List.concat_eq_append] at hq
  by_cases hcol : t.color = c
  · by_cases hte : t.to_enter = 0
    · rw [enter_color_join _ _ l t hf' hq hcol hte]
      simp [hq, link_group_same l t c hcol, set_last_concat, hte]
    · rw [enter_color_grab _ _ l t hf' hq hcol hte]
      simp [hq, link_group_same l t c hcol, set_last_concat, hte]
  · rw [enter_color_other _ _ l t hf' hq hcol]
    simp only [hq, link_group_other l t c hcol, List.getLast?_concat, set_last_concat]
    simp [group_new, lone_group]

/-- C17 (the admission decision is the reference one): the state `enter_color`
has built when it returns from the fast path or reaches its wait loop is the
one of the reference definition. If `active_color == NONE`, or
`active_color == c` and the queue is empty or its head group has color `c`,
then `active_color` becomes `c`, `active_count` grows by one and the queue is
unchanged. Otherwise `active_color` and `active_count` are unchanged; a new
group (color `c`, `waiting` 1, `to_enter` 0) is appended when the queue is
empty or its tail group has another color, and else only `waiting` of the tail
group grows by one. -/
theorem enter_color_decision_refines (w : wb_t) (c : color_t) :
    enter_color_decide w c = (acquire_ref w c, fast_path w c) ∧
      (fast_path w c = true ↔
        (w.active_color = NONE ∨
          (w.active_color = c ∧ (w.queue = [] ∨ ∃ h, w.head = some h ∧ h.color = c)))) ∧
      (fast_path w c = true →
        acquire_ref w c = { w with active_color := c, active_count := w.active_count + 1 }) ∧
      (fast_path w c = false → (w.queue = [] ∨ ∃ t, w.tail = some t ∧ t.color ≠ c) →
        acquire_ref w c =
          { w with queue := w.queue ++ [{ group_new c with waiting := 1 }] } ∧
        (acquire_ref w c).head =
          (if w.queue = [] then some { group_new c with waiting := 1 } else w.head)) ∧
      (fast_path w c = false → ∀ l t, w.queue = l ++ [t] → t.color = c →
        acquire_ref w c = { w with queue := l ++ [{ t with waiting := t.waiting + 1 }] }) := by
  have hfast : fast_path w c = true ↔
      (w.active_color = NONE ∨ (w.active_color = c ∧ ∀ h ∈ w.queue.head?, h.color = c)) := by
    rw [fast_path_iff]; simp
  refine ⟨?_, ?_, fun hf => ?_, fun hf hq => ?_, fun hf l t hq hcol => ?_⟩
  · by_cases hf : fast_path w c = true
    · simp only [enter_color_decide, hf, if_true, acquire_ref, hfast.1 hf]
    have hf' : fast_path w c = false := by simpa using hf
    have hn := mt hfast.2 hf
    simp only [enter_color_decide, hf', Bool.false_eq_true, if_false, acquire_ref, hn,
      enter_color_queue]
    rcases List.eq_nil_or_concat w.queue with hq | ⟨l, t, hq⟩
    · simp [hq, link_group_nil, group_new, set_last]
    rw [List.concat_eq_append] at hq
    by_cases hcol : t.color = c
    · simp [hq, link_group_same l t c hcol, set_last_concat, hcol,
        List.modifyLast_append_one]
    · simp only [hq, link_group_other l t c hcol, List.getLast?_concat, set_last_concat]
      simp [hcol, group_new]
  · rw [fast_path_iff]
    cases hq : w.queue with
    | nil => simp [wb_t.head, hq]
    | cons a r => simp [wb_t.head, hq]
  · simp only [acquire_ref, hfast.1 hf, if_true]
  · have hn : ¬ (w.active_color = NONE ∨
        (w.active_color = c ∧ ∀ h ∈ w.queue.head?, h.color = c)) :=
      mt hfast.2 (by simp [hf])
    have htail : ∀ t ∈ w.queue.getLast?, t.color ≠ c := by
      intro t ht
      rcases hq with hq | ⟨t', ht', hc⟩
      · simp [hq] at ht
      · simp only [wb_t.tail] at ht'
        rw [ht'] at ht
        simp only [Option.mem_def, Option.some.injEq] at ht
        exact ht ▸ hc
    have hnew : acquire_ref w c =
        { w with queue := w.queue ++ [{ group_new c with waiting := 1 }] } := by
      unfold acquire_ref
      rw [if_neg hn, if_pos htail]
      rfl
    refine ⟨hnew, ?_⟩
    rw [hnew]
    cases hq' : w.queue with
    | nil => simp [wb_t.head]
    | cons a r => simp [wb_t.head, hq']
  · have hn : ¬ (w.active_color = NONE ∨
        (w.active_color = c ∧ ∀ h ∈ w.queue.head?, h.color = c)) :=
      mt hfast.2 (by simp [hf])
    have htail : ¬ ∀ t ∈ w.queue.getLast?, t.color ≠ c := by
      intro h
      exact h t (by simp [hq]) hcol
    unfold acquire_ref
    rw [if_neg hn, if_neg htail, hq, List.modifyLast_append_one]

/-! ## Counter invariant and absence of stuck states -/

/-- Under the invariant a wake-up behind the head changes nothing. -/
theorem Inv.wake_behind {s : Sys} (hs : Inv s) (i : Nat) (c : color_t) :
    enter_color_wake s.w (i + 1) c = (s.w, outcome.blocked) := by
  unfold enter_color_wake
  cases hg : s.w.queue[i + 1]? with
  | none => rfl
  | some g => simp [hs.behind_index i g hg]

/-- Under the invariant a newcomer that gets in off the fast path found the
only group of the queue released. -/
theorem Inv.grab_head {s : Sys} (hs : Inv s) (c : color_t) (hf : fast_path s.w c = false)
    (hret : (enter_color s.w c).2 = outcome.returned) :
    ∃ t, s.w.queue = [t] ∧ t.color = c ∧ t.to_enter ≠ 0 := by
  rcases List.eq_nil_or_concat s.w.queue with hq | ⟨l, t, hq⟩
  · rw [enter_color_nil _ _ hf hq] at hret
    simp at hret
  rw [List.concat_eq_append] at hq
  by_cases hcol : t.color = c
  · by_cases hte : t.to_enter = 0
    · rw [enter_color_join _ _ l t hf hq hcol hte] at hret
      simp at hret
    · cases l with
      | nil => exact ⟨t, by simpa using hq, hcol, hte⟩
      | cons a l => exact absurd (hs.behind t (by simp [hq])) hte
  · rw [enter_color_other _ _ l t hf hq hcol] at hret
    simp at hret

/-- C19 (counter invariant): in every reachable state each queued group has
`0 <= to_enter <= waiting` and `waiting >= 1`, `waiting` being the number of
threads blocked on the group, and `active_count >= 0`. A thread that consumes a
grant does so in the head group: a wake-up that gets a thread in happens at
position `0`, and a newcomer let in off the fast path found the single group of
the queue released. So the test `g == w->head` holds whenever a group's
counters reach zero, and no group with both counters zero stays queued. -/
theorem counter_invariant (s : Sys) (h : Reachable s) :
    (∀ g ∈ s.w.queue,
        0 ≤ g.to_enter ∧ g.to_enter ≤ g.waiting ∧ 1 ≤ g.waiting ∧
          g.waiting = g.cond.length) ∧
      0 ≤ s.w.active_count ∧
      (∀ i c w', enter_color_wake s.w i c = (w', outcome.returned) → i = 0) ∧
      (∀ c, fast_path s.w c = false → (enter_color s.w c).2 = outcome.returned →
        ∃ t, s.w.queue = [t] ∧ t.color = c ∧ t.to_enter ≠ 0) ∧
      (∀ g ∈ s.w.queue, ¬ (g.waiting = 0 ∧ g.to_enter = 0)) := by
  have hs := h.inv
  refine ⟨fun g hg => ?_, hs.count_nonneg, fun i c w' hw => ?_,
    fun c hf hret => hs.grab_head c hf hret, fun g hg hz => ?_⟩
  · have hok := hs.groups g hg
    exact ⟨hok.to_enter_nonneg, hok.to_enter_le, hok.waiting_pos, hok.waiting_eq⟩
  · cases i with
    | zero => rfl
    | succ k =>
      rw [hs.wake_behind k c] at hw
      simp at hw
  · have := (hs.groups g hg).waiting_pos
    omega

/-- Witness of C19: a released black head group with a white group behind. -/
theorem counter_invariant_witness :
    Reachable released_head ∧
      ((∀ g ∈ released_head.w.queue,
          0 ≤ g.to_enter ∧ g.to_enter ≤ g.waiting ∧ 1 ≤ g.waiting ∧
            g.waiting = g.cond.length) ∧
        0 ≤ released_head.w.active_count ∧
        (∀ i c w', enter_color_wake released_head.w i c = (w', outcome.returned) → i = 0) ∧
        (∀ c, fast_path released_head.w c = false →
          (enter_color released_head.w c).2 = outcome.returned →
          ∃ t, released_head.w.queue = [t] ∧ t.color = c ∧ t.to_enter ≠ 0) ∧
        (∀ g ∈ released_head.w.queue, ¬ (g.waiting = 0 ∧ g.to_enter = 0))) :=
  ⟨released_head_reachable, counter_invariant released_head released_head_reachable⟩

/-- C20 (no stuck state): in every reachable state with `active_count == 0` and
a non-empty queue the head group has `to_enter >= 1` and `waiting >= 1`, a
thread is blocked on it, and the wake-up of that thread is a step that gets it
in: afterwards it is the one thread inside and `active_color` is its color. -/
theorem no_stuck_state (s : Sys) (h : Reachable s) (h0 : s.w.active_count = 0)
    (hq : s.w.queue ≠ []) :
    ∃ g rest, s.w.queue = g :: rest ∧ 1 ≤ g.to_enter ∧ 1 ≤ g.waiting ∧ g.color ∈ g.cond ∧
      ∃ s', step s (Event.wake 0 g.color) = some s' ∧ s'.w.active_count = 1 ∧
        s'.w.active_color = g.color ∧ s'.inside g.color = 1 := by
  have hs := h.inv
  cases hq' : s.w.queue with
  | nil => exact absurd hq' hq
  | cons g rest =>
    have hok := hs.groups g (by simp [hq'])
    have hte := hs.ready g (by simp [hq']) h0
    have hmem : g.color ∈ g.cond := by
      have hpos : 0 < g.cond.length := by
        have h1 := hok.waiting_pos
        have h2 := hok.waiting_eq
        omega
      obtain ⟨c, hc⟩ := List.exists_mem_of_length_pos hpos
      exact hok.cond_color c hc ▸ hc
    have hne : ¬ g.to_enter = 0 := by omega
    have hcnt := hs.count
    have hw0 : s.in_white = 0 := by omega
    have hb0 : s.in_black = 0 := by omega
    refine ⟨g, rest, rfl, hte, hok.waiting_pos, hmem, ?_⟩
    have hstep : step s (Event.wake 0 g.color) =
        some (s.enter
          (enter_color_finish
            { s.w with queue := { g with cond := g.cond.erase g.color } :: rest } 0 g.color)
          g.color) := by
      simp [step, hq', hmem, enter_color_wake, hne]
    refine ⟨_, hstep, ?_⟩
    rw [enter_color_finish_head _ { g with cond := g.cond.erase g.color } rest g.color rfl]
    have hcol := hok.color_ne
    cases hgc : g.color with
    | NONE => exact absurd hgc hcol
    | WHITE => simp [Sys.enter, Sys.inside, h0, hw0]
    | BLACK => simp [Sys.enter, Sys.inside, h0, hb0]

/-- Witness of C20: nobody inside, the released black head group goes first. -/
theorem no_stuck_state_witness :
    Reachable released_head ∧ released_head.w.active_count = 0 ∧
      released_head.w.queue ≠ [] ∧
      (∃ g rest, released_head.w.queue = g :: rest ∧ 1 ≤ g.to_enter ∧ 1 ≤ g.waiting ∧
        g.color ∈ g.cond ∧
        ∃ s', step released_head (Event.wake 0 g.color) = some s' ∧ s'.w.active_count = 1 ∧
          s'.w.active_color = g.color ∧ s'.inside g.color = 1) :=
  ⟨released_head_reachable, rfl, by decide,
    no_stuck_state released_head released_head_reachable rfl (by decide)⟩

/-! ## How a step changes the queue -/

theorem enter_color_finish_queue (w : wb_t) (i : Nat) (c : color_t) (g : group_t)
    (hg : w.queue[i]? = some g) :
    (enter_color_finish w i c).queue =
      if i = 0 ∧ g.waiting - 1 = 0 ∧ g.to_enter - 1 = 0 then w.queue.tail
      else w.queue.set i { g with waiting := g.waiting - 1, to_enter := g.to_enter - 1 } := by
  unfold enter_color_finish
  rw [hg]
  simp only
  split
  · next h =>
    obtain ⟨rfl, _⟩ := h
    cases hq : w.queue <;> simp
  · rfl

/-- The queue after the end of `enter_color`, run for the group `g0` at
position `i`, of which `g` is the state before the caller was counted or
removed from the blocked threads. -/
theorem finish_change (w w1 : wb_t) (e : Event) (i : Nat) (c : color_t) (g g0 : group_t)
    (hg : w.queue[i]? = some g) (hw1 : w1.queue = w.queue.set i g0)
    (hne : g.to_enter ≠ 0) (hcol : g0.color = g.color) (hte : g0.to_enter = g.to_enter)
    (hwait : (e = Event.wake i c ∧ g0.waiting = g.waiting) ∨
      (e = Event.enter c ∧ fast_path w c = false ∧ g0.waiting = g.waiting + 1 ∧
        i + 1 = w.queue.length)) :
    queue_change w e (enter_color_finish w1 i c).queue := by
  have hlt : i < w.queue.length := (List.getElem?_eq_some.1 hg).1
  have hg0 : w1.queue[i]? = some g0 := by
    rw [hw1, List.getElem?_set_self hlt]
  rw [enter_color_finish_queue w1 i c g0 hg0, hw1]
  split
  · next h =>
    obtain ⟨rfl, h1, h2⟩ := h
    cases hq : w.queue with
    | nil => simp [hq] at hlt
    | cons a rest =>
      have ha : a = g := by simpa [hq] using hg
      subst ha
      simp only [List.set_cons_zero, List.tail_cons]
      refine queue_change.unlinked e a rest hq (by omega) ?_
      rcases hwait with ⟨he, hw⟩ | ⟨he, hf, hw, hlen⟩
      · exact Or.inl ⟨c, he, by omega⟩
      · refine Or.inr ⟨c, he, hf, by omega, ?_⟩
        simp only [hq, List.length_cons] at hlen
        exact List.length_eq_zero.1 (by omega)
  · next h =>
    rw [List.set_set]
    refine queue_change.consumed e i g _ hg hne hcol (by simp [hte]) ?_ h ?_
    · rcases hwait with ⟨_, hw⟩ | ⟨_, _, hw, _⟩ <;> simp only <;> omega
    · rcases hwait with ⟨he, _⟩ | ⟨he, hf, _, _⟩
      · exact Or.inl ⟨c, he⟩
      · exact Or.inr ⟨c, he, hf⟩

theorem wb_step_change (w : wb_t) (e : Event) : queue_change w e (wb_step w e).queue := by
  cases e with
  | enter c =>
    simp only [wb_step]
    by_cases hf : fast_path w c = true
    · rw [enter_color_fast _ _ hf]
      exact queue_change.same _
    have hf' : fast_path w c = false := by simpa using hf
    rcases List.eq_nil_or_concat w.queue with hq | ⟨l, t, hq⟩
    · rw [enter_color_nil _ _ hf' hq]
      have := queue_change.opened (w := w) c hf'
      rwa [hq] at this
    rw [List.concat_eq_append] at hq
    by_cases hcol : t.color = c
    · by_cases hte : t.to_enter = 0
      · rw [enter_color_join _ _ l t hf' hq hcol hte]
        exact queue_change.joined c l t hf' hq hcol hte
      · rw [enter_color_grab _ _ l t hf' hq hcol hte]
        refine finish_change w _ _ l.length c t { t with waiting := t.waiting + 1 }
          (by simp [hq]) (by simp [hq]) hte rfl rfl (Or.inr ⟨rfl, hf', rfl, by simp [hq]⟩)
    · rw [enter_color_other _ _ l t hf' hq hcol, ← hq]
      exact queue_change.opened c hf'
  | wake i c =>
    simp only [wb_step, enter_color_wake]
    cases hg : w.queue[i]? with
    | none => exact queue_change.same _
    | some g =>
      simp only
      split
      · exact queue_change.same _
      · next hte =>
        exact finish_change w _ _ i c g { g with cond := g.cond.erase c } hg rfl hte rfl rfl
          (Or.inl ⟨rfl, rfl⟩)
  | leave c =>
    simp only [wb_step, leave_color]
    split
    · next h0 =>
      cases hq : w.queue with
      | nil => simpa [hq] using queue_change.same (w := w) (Event.leave c)
      | cons h rest => exact queue_change.released c h rest h0 hq
    · exact queue_change.same _

/-- C15 (removal discipline): `leave_color` never removes a group: the queue
keeps its length and all groups behind the head. A critical section shortens
the queue only by taking the last grant in `enter_color`: the group unlinked is
the head `h`, its counters are both zero after the decrements (`to_enter` was
`1`; `waiting` was `1` for a thread that had been blocked, `0` for a caller that
never blocked), the queue becomes the groups behind `h` in their order, the
new head is the successor of `h`, and `tail` is cleared exactly when nothing is
left. The end of `enter_color` unlinks exactly under the test
`g == w->head && g->waiting == 0 && g->to_enter == 0`. -/
theorem removal_discipline (w : wb_t) (e : Event) :
    (∀ c, e = Event.leave c →
      (wb_step w e).queue.length = w.queue.length ∧
        (wb_step w e).queue.tail = w.queue.tail) ∧
      ((wb_step w e).queue.length < w.queue.length →
        ∃ h rest, w.queue = h :: rest ∧ h.to_enter = 1 ∧
          ((∃ c, e = Event.wake 0 c ∧ h.waiting = 1) ∨
            ∃ c, e = Event.enter c ∧ fast_path w c = false ∧ h.waiting = 0 ∧ rest = []) ∧
          (wb_step w e).queue = rest ∧ (wb_step w e).head = rest.head? ∧
          ((wb_step w e).tail = none ↔ rest = [])) ∧
      (∀ i c g, w.queue[i]? = some g →
        (enter_color_finish w i c).queue =
          if i = 0 ∧ g.waiting - 1 = 0 ∧ g.to_enter - 1 = 0 then w.queue.tail
          else w.queue.set i
            { g with waiting := g.waiting - 1, to_enter := g.to_enter - 1 }) := by
  have hch := wb_step_change w e
  simp only [wb_t.head, wb_t.tail]
  generalize (wb_step w e).queue = q' at hch ⊢
  refine ⟨fun c he => ?_, fun hlt => ?_, fun i c g hg => enter_color_finish_queue w i c g hg⟩
  · cases hch with
    | same => exact ⟨rfl, rfl⟩
    | opened c' hf => exact absurd he (by simp)
    | joined c' l t hf hq hc ht => exact absurd he (by simp)
    | consumed _ i g g' hg hne hcol hte hw hn hev =>
      rcases hev with ⟨c', h⟩ | ⟨c', h, _⟩ <;> rw [h] at he <;> exact absurd he (by simp)
    | unlinked _ h rest hq hte hev =>
      rcases hev with ⟨c', h, _⟩ | ⟨c', h, _⟩ <;> rw [h] at he <;> exact absurd he (by simp)
    | released c' h rest h0 hq => simp [hq]
  · cases hch with
    | same => exact absurd hlt (lt_irrefl _)
    | opened c' hf => simp at hlt
    | joined c' l t hf hq hc ht => simp [hq] at hlt
    | consumed _ i g g' hg hne hcol hte hw hn hev => simp at hlt
    | unlinked _ h rest hq hte hev =>
      exact ⟨h, q', hq, hte, hev, rfl, rfl, List.getLast?_eq_none_iff⟩
    | released c' h rest h0 hq => simp [hq] at hlt

/-- C14, as stated, fails twice. The sum `waiting + to_enter` of the queued
black group grows from `1` to `2` in a `leave_color` step, the one that releases
the group; and a black caller then joins the released group (`to_enter == 1`)
and gets in at once, in place of the thread blocked on the group. -/
theorem sum_monotonicity_counterexample :
    run sys_init [Event.enter WHITE, Event.enter BLACK] = some held_open ∧
      held_open.w.queue = [lone_group BLACK] ∧ group_sum (lone_group BLACK) = 1 ∧
      step held_open (Event.leave WHITE) = some released_only ∧
      released_only.w.queue = [batch BLACK 1 1] ∧ group_sum (batch BLACK 1 1) = 2 ∧
      enter_color released_only.w BLACK =
        ({ queue := [lone_group BLACK], active_color := BLACK, active_count := 1 },
          outcome.returned) :=
  ⟨rfl, rfl, rfl, rfl, rfl, rfl, rfl⟩

/-- C14 amended (sum monotonicity): take any critical section of `enter_color`
or `leave_color` and a group that is queued before and after it (`g` before,
`g'` after, at position `i`; the positions before are shifted by the number of
groups the step unlinked). The group keeps its color, and its sum
`waiting + to_enter` does not grow, except in two steps: an `enter_color` step
in which the caller joins this group, the tail, while it is not released
(`to_enter == 0`), which adds one to `waiting`; and the `leave_color` step that
releases this group, the head, by `to_enter = waiting`. -/
theorem sum_monotonicity (w : wb_t) (e : Event) (i : Nat) (g g' : group_t)
    (hg : w.queue[i + (w.queue.length - (wb_step w e).queue.length)]? = some g)
    (hg' : (wb_step w e).queue[i]? = some g') :
    g'.color = g.color ∧
      (group_sum g' ≤ group_sum g ∨
        (∃ c, e = Event.enter c ∧ g.color = c ∧ g.to_enter = 0 ∧ i + 1 = w.queue.length ∧
          g' = { g with waiting := g.waiting + 1, cond := c :: g.cond }) ∨
        (∃ c, e = Event.leave c ∧ i = 0 ∧ w.active_count = 1 ∧
          g' = { g with to_enter := g.waiting })) := by
  have hch := wb_step_change w e
  generalize (wb_step w e).queue = q' at hch hg hg'
  cases hch with
  | same =>
    simp only [Nat.sub_self, Nat.add_zero] at hg
    rw [hg] at hg'
    simp only [Option.some.injEq] at hg'
    subst hg'
    exact ⟨rfl, Or.inl (le_refl _)⟩
  | opened c hf =>
    have hk : w.queue.length - (w.queue ++ [lone_group c]).length = 0 := by simp
    rw [hk, Nat.add_zero] at hg
    have hlt : i < w.queue.length := (List.getElem?_eq_some.1 hg).1
    rw [List.getElem?_append_left hlt, hg] at hg'
    simp only [Option.some.injEq] at hg'
    subst hg'
    exact ⟨rfl, Or.inl (le_refl _)⟩
  | joined c l t hf hq hc ht =>
    have hk : w.queue.length -
        (l ++ [{ t with waiting := t.waiting + 1, cond := c :: t.cond }]).length = 0 := by
      simp [hq]
    rw [hk, Nat.add_zero, hq] at hg
    have hlt : i < (l ++ [t]).length := (List.getElem?_eq_some.1 hg).1
    simp only [List.length_append, List.length_singleton] at hlt
    by_cases hi : i < l.length
    · rw [List.getElem?_append_left hi] at hg hg'
      rw [hg] at hg'
      simp only [Option.some.injEq] at hg'
      subst hg'
      exact ⟨rfl, Or.inl (le_refl _)⟩
    · have hil : i = l.length := by omega
      subst hil
      rw [List.getElem?_concat_length] at hg hg'
      simp only [Option.some.injEq] at hg hg'
      subst hg hg'
      exact ⟨rfl, Or.inr (Or.inl ⟨c, rfl, hc, ht, by simp [hq], rfl⟩)⟩
  | consumed _ j g0 g1 hg0 hne hcol hte hw hn hev =>
    simp only [List.length_set, Nat.sub_self, Nat.add_zero] at hg
    by_cases hij : j = i
    · subst hij
      have hlt : j < w.queue.length := (List.getElem?_eq_some.1 hg).1
      rw [List.getElem?_set_self hlt] at hg'
      rw [hg0] at hg
      simp only [Option.some.injEq] at hg hg'
      subst hg hg'
      refine ⟨hcol, Or.inl ?_⟩
      simp only [group_sum]
      omega
    · rw [List.getElem?_set_ne hij, hg] at hg'
      simp only [Option.some.injEq] at hg'
      subst hg'
      exact ⟨rfl, Or.inl (le_refl _)⟩
  | unlinked _ h rest hq hte hev =>
    have hk : w.queue.length - q'.length = 1 := by simp [hq]
    rw [hk, hq, List.getElem?_cons_succ, hg'] at hg
    simp only [Option.some.injEq] at hg
    subst hg
    exact ⟨rfl, Or.inl (le_refl _)⟩
  | released c h rest h0 hq =>
    have hk : w.queue.length - ({ h with to_enter := h.waiting } :: rest).length = 0 := by
      simp [hq]
    rw [hk, Nat.add_zero, hq] at hg
    cases i with
    | zero =>
      simp only [List.getElem?_cons_zero, Option.some.injEq] at hg hg'
      subst hg hg'
      exact ⟨rfl, Or.inr (Or.inr ⟨c, rfl, rfl, by omega, rfl⟩)⟩
    | succ k =>
      rw [List.getElem?_cons_succ] at hg hg'
      rw [hg] at hg'
      simp only [Option.some.injEq] at hg'
      subst hg'
      exact ⟨rfl, Or.inl (le_refl _)⟩

/-- Witness of C14 amended: the release of the black group of `held_open`. -/
theorem sum_monotonicity_witness :
    held_open.w.queue[0 + (held_open.w.queue.length -
        (wb_step held_open.w (Event.leave WHITE)).queue.length)]? = some (lone_group BLACK) ∧
      (wb_step held_open.w (Event.leave WHITE)).queue[0]? = some (batch BLACK 1 1) ∧
      ((batch BLACK 1 1).color = (lone_group BLACK).color ∧
        (group_sum (batch BLACK 1 1) ≤ group_sum (lone_group BLACK) ∨
          (∃ c, Event.leave WHITE = Event.enter c ∧ (lone_group BLACK).color = c ∧
            (lone_group BLACK).to_enter = 0 ∧ 0 + 1 = held_open.w.queue.length ∧
            batch BLACK 1 1 =
              { lone_group BLACK with
                waiting := (lone_group BLACK).waiting + 1,
                cond := c :: (lone_group BLACK).cond }) ∨
          (∃ c, Event.leave WHITE = Event.leave c ∧ 0 = 0 ∧ held_open.w.active_count = 1 ∧
            batch BLACK 1 1 =
              { lone_group BLACK with to_enter := (lone_group BLACK).waiting }))) :=
  ⟨rfl, rfl,
    sum_monotonicity held_open.w (Event.leave WHITE) 0 (lone_group BLACK) (batch BLACK 1 1)
      rfl rfl⟩

end WB
